import Mathlib

/-!
Verification development for the zenith-router repository.

Strings are modelled as `List Char` (`Str`), so that the character-level
splitting and scanning done by the JavaScript/TypeScript sources can be
mirrored exactly and reasoned about by structural induction.

Each definition mirrors one function of the source tree; the source file and
function are named in the doc comment.
-/

/-- Character-list model of a JavaScript string. -/
abbrev Str := List Char

/-- Convenience conversion from a Lean string literal to the `Str` model. -/
def strOf (s : String) : Str := s.toList

/-- Splitting on `'/'` as done by JavaScript `path.split('/')`: every
separator produces a boundary, so leading/trailing/adjacent slashes yield
empty pieces.  `acc` is the (reversed) piece currently being scanned. -/
def splitAux : Str → Str → List Str
  | [], acc => [acc.reverse]
  | c :: cs, acc =>
    if c = '/' then acc.reverse :: splitAux cs [] else splitAux cs (c :: acc)

/-- Model of `path.split('/')`. -/
def splitOnSlash (p : Str) : List Str := splitAux p []

/-- Model of `_splitPath` in `src/match.js`: split on `'/'` and drop empty
pieces (`filter(Boolean)`). -/
def splitPath (p : Str) : List Str :=
  (splitOnSlash p).filter (fun s => !s.isEmpty)

/-- Model of `_isValidParamName` in `src/match.js`: the ASCII regex
`^[A-Za-z_][A-Za-z0-9_]*$` (Lean's `Char.isAlpha`/`Char.isAlphanum` are the
same ASCII classes). -/
def isValidParamName (name : Str) : Bool :=
  match name with
  | [] => false
  | c :: cs => (c.isAlpha || c = '_') && cs.all (fun d => d.isAlphanum || d = '_')

/-- Result record of `matchPath` in `src/match.js`; `params` is the object's
ordered key/value list (keys are distinct by construction). -/
structure MatchPathResult where
  matched : Bool
  params : List (Str × Str)
deriving Repr, DecidableEq

/-- Segment walk loop of `matchPath` (`src/match.js` lines 41-60): called with
route and path segment lists of equal length, the set of already-seen
parameter names and the params accumulated so far. -/
def matchSegs : List Str → List Str → List Str → List (Str × Str) → MatchPathResult
  | [], _, _, params => ⟨true, params⟩
  | _ :: _, [], _, _ => ⟨false, []⟩
  | rseg :: rs, pseg :: ps, seen, params =>
    if rseg.head? = some ':' then
      if isValidParamName rseg.tail then
        if rseg.tail ∈ seen then ⟨false, []⟩
        else matchSegs rs ps (rseg.tail :: seen) (params ++ [(rseg.tail, pseg)])
      else ⟨false, []⟩
    else if rseg = pseg then matchSegs rs ps seen params else ⟨false, []⟩

/-- Model of `matchPath` in `src/match.js`: split both paths, require equal
segment counts, then walk the segments. -/
def matchPath (routePath pathname : Str) : MatchPathResult :=
  let routeSegments := splitPath routePath
  let pathSegments := splitPath pathname
  if routeSegments.length ≠ pathSegments.length then ⟨false, []⟩
  else matchSegs routeSegments pathSegments [] []

/-- Route entry of the V0 manifest (`src/match.js` RouteEntry): the `load`
function is opaque to matching, so it is modelled by an identifier. -/
structure RouteEntry where
  path : Str
  loadId : Nat := 0
deriving Repr, DecidableEq

/-- Model of `matchRoute` in `src/match.js`: first-match-wins over the ordered
manifest, `none` when no route matches. -/
def matchRoute : List RouteEntry → Str → Option (RouteEntry × List (Str × Str))
  | [], _ => none
  | route :: rest, pathname =>
    let result := matchPath route.path pathname
    if result.matched then some (route, result.params) else matchRoute rest pathname

/-! ### Build-time route compilation, `src/types.ts` -/

/-- Segment kinds of the pattern compiler (`SegmentType` in `src/types.ts`). -/
inductive SegmentType
  | Static
  | Dynamic
  | CatchAll
  | OptionalCatchAll
deriving Repr, DecidableEq

/-- Parsed segment record (`ParsedSegment` in `src/types.ts`): Static carries
no parameter name. -/
structure ParsedSegment where
  segmentType : SegmentType
  paramName : Option Str
  raw : Str
deriving Repr, DecidableEq

/-- Classification of one route-path token, mirroring the branch order of
`parseRouteSegments` in `src/types.ts`: `*x?` optional catch-all, `*x`
catch-all, `:x` dynamic, anything else static. -/
def classifySegment (segment : Str) : ParsedSegment :=
  if segment.head? = some '*' ∧ segment.getLast? = some '?' then
    ⟨SegmentType.OptionalCatchAll, some (segment.drop 1).dropLast, segment⟩
  else if segment.head? = some '*' then
    ⟨SegmentType.CatchAll, some (segment.drop 1), segment⟩
  else if segment.head? = some ':' then
    ⟨SegmentType.Dynamic, some (segment.drop 1), segment⟩
  else ⟨SegmentType.Static, none, segment⟩

/-- Model of `parseRouteSegments` in `src/types.ts`: `"/"` parses to the
empty sequence, otherwise `routePath.slice(1).split("/")` is classified
token by token (no filtering of empty tokens here, as in the source). -/
def parseRouteSegments (routePath : Str) : List ParsedSegment :=
  if routePath = ['/'] then []
  else (splitOnSlash (routePath.drop 1)).map classifySegment

/-- Scoring constants (`SEGMENT_SCORES` in `src/types.ts`). -/
def SEGMENT_SCORES : SegmentType → Nat
  | SegmentType.Static => 10
  | SegmentType.Dynamic => 5
  | SegmentType.CatchAll => 1
  | SegmentType.OptionalCatchAll => 0

/-- Model of `calculateRouteScore` in `src/types.ts`: 100 for the empty (root)
sequence, otherwise the per-segment weights plus twice the static count. -/
def calculateRouteScore (segments : List ParsedSegment) : Nat :=
  if segments.length = 0 then 100
  else
    (segments.foldl (fun acc s => acc + SEGMENT_SCORES s.segmentType) 0)
      + (segments.filter (fun s => s.segmentType = SegmentType.Static)).length * 2

/-- Model of `extractParamNames` in `src/types.ts`: the parameter names of the
non-static segments, in order. -/
def extractParamNames (segments : List ParsedSegment) : List Str :=
  ((segments.filter (fun s => s.paramName.isSome)).map (fun s => s.paramName)).reduceOption

/-- Shape of one piece of the regex source text built by `routePathToRegex` in
`src/types.ts`.  The escaping applied to static tokens makes the piece match
exactly the literal token, so the escaped text is kept as the token itself. -/
inductive RegexPart
  | optCatchAll
  | catchAll
  | dynamic
  | lit (s : Str)
deriving Repr, DecidableEq

/-- Compiled pattern (`routePathToRegex` result shape): the root route gets
the fixed regex matching exactly a single slash, every other route gets the
anchored concatenation of its segment pieces plus an optional trailing
slash. -/
inductive CompiledRegex
  | root
  | parts (ps : List RegexPart)
deriving Repr, DecidableEq

/-- Model of `routePathToRegex` in `src/types.ts`: the piece built for each
token of `routePath.slice(1).split("/")`, skipping empty tokens. -/
def routePathToRegex (routePath : Str) : CompiledRegex :=
  if routePath = ['/'] then CompiledRegex.root
  else
    CompiledRegex.parts
      ((splitOnSlash (routePath.drop 1)).filterMap (fun segment =>
        if segment.isEmpty then none
        else if segment.head? = some '*' ∧ segment.getLast? = some '?' then
          some RegexPart.optCatchAll
        else if segment.head? = some '*' then some RegexPart.catchAll
        else if segment.head? = some ':' then some RegexPart.dynamic
        else some (RegexPart.lit segment)))

/-- Compiled route record (`RouteDefinition`/`RouteRecord` in `src/types.ts`),
built exactly as `generateRouteDefinition` builds it from a route path (the
file-path fields, which matching never reads, are omitted). -/
structure RouteRecord where
  path : Str
  paramNames : List Str
  score : Nat
  regex : CompiledRegex
deriving Repr, DecidableEq

/-- Route-path part of `generateRouteDefinition` in `src/types.ts`. -/
def generateRouteDefinition (routePath : Str) : RouteRecord :=
  let segments := parseRouteSegments routePath
  { path := routePath
  , paramNames := extractParamNames segments
  , score := calculateRouteScore segments
  , regex := routePathToRegex routePath }

/-- Insertion step of the stable descending sort: walk past every element
whose score is at least the score of `r`, so equal scores keep their original
relative order. -/
def sortInsert (r : RouteRecord) : List RouteRecord → List RouteRecord
  | [] => [r]
  | x :: xs => if r.score > x.score then r :: x :: xs else x :: sortInsert r xs

/-- Model of the sort in `generateRouteManifest` (`src/types.ts` line 254):
`definitions.sort((a, b) => b.score - a.score)`.  ECMA-262 requires
`Array.prototype.sort` to be stable, and this comparator orders solely by
score descending, so the call is modelled by a stable insertion sort with the
same ordering. -/
def generateRouteManifest (definitions : List RouteRecord) : List RouteRecord :=
  definitions.foldl (fun acc r => sortInsert r acc) []

/-! ### Semantics of the compiled regexes

`routePathToRegex` produces the anchored regex
`^` piece-1 ... piece-n `\/?$` where each piece is one of `(?:\/(.*))?`,
`\/(.+)`, `\/([^/]+)` or an escaped literal `\/lit`.  The functions below give
these regexes their ECMAScript backtracking semantics directly: alternatives
are tried in the engine's preference order (greedy quantifiers longest first,
an optional group present before absent) and the first complete match wins.
Dot is modelled as matching any character (pathnames contain no line
terminators). -/

/-- All decompositions `cs = v ++ rest`, longest `v` first — the preference
order in which a greedy quantifier offers its candidates. -/
def prefixSplits : Str → List (Str × Str)
  | [] => [([], [])]
  | c :: cs => ((prefixSplits cs).map (fun vr => (c :: vr.1, vr.2))) ++ [([], c :: cs)]

/-- Backtracking matcher for a piece list against the remaining input,
including the trailing `\/?$` of the compiled regex.  Returns the capture
groups in order (`none` is an unmatched optional group, JavaScript
`undefined`). -/
def execParts : List RegexPart → Str → Option (List (Option Str))
  | [] => fun cs => if cs = [] ∨ cs = ['/'] then some [] else none
  | part :: rest => fun cs =>
    let k := execParts rest
    match part with
    | RegexPart.lit s =>
      if cs.take (s.length + 1) = '/' :: s then k (cs.drop (s.length + 1)) else none
    | RegexPart.dynamic =>
      match cs with
      | '/' :: tail =>
        ((prefixSplits tail).filter
          (fun vr => !vr.1.isEmpty && !vr.1.contains '/')).findSome?
          (fun vr => (k vr.2).map (fun gs => some vr.1 :: gs))
      | _ => none
    | RegexPart.catchAll =>
      match cs with
      | '/' :: tail =>
        ((prefixSplits tail).filter (fun vr => !vr.1.isEmpty)).findSome?
          (fun vr => (k vr.2).map (fun gs => some vr.1 :: gs))
      | _ => none
    | RegexPart.optCatchAll =>
      let viaGroup :=
        match cs with
        | '/' :: tail =>
          (prefixSplits tail).findSome?
            (fun vr => (k vr.2).map (fun gs => some vr.1 :: gs))
        | _ => none
      match viaGroup with
      | some gs => some gs
      | none => (k cs).map (fun gs => none :: gs)

/-- Model of `route.regex.exec(path)` for a regex built by
`routePathToRegex`: `some groups` is a match, `none` is `null`. -/
def regexExec (regex : CompiledRegex) (input : Str) : Option (List (Option Str)) :=
  match regex with
  | CompiledRegex.root => if input = ['/'] then some [] else none
  | CompiledRegex.parts ps => execParts ps input

/-! ### Runtime resolution, `src/runtime.ts` -/

/-- Value of one hexadecimal digit (digits 0-9, letters A-F or a-f, by
their code points: 48-57, 65-70, 97-102). -/
def hexVal (c : Char) : Option Nat :=
  let n := c.toNat
  if 48 ≤ n ∧ n ≤ 57 then some (n - 48)
  else if 65 ≤ n ∧ n ≤ 70 then some (n - 55)
  else if 97 ≤ n ∧ n ≤ 102 then some (n - 87)
  else none

/-- Model of `decodeURIComponent` on its ASCII fragment: `%XX` escapes below
0x80 decode to the corresponding character, other characters pass through,
and a malformed escape is a `URIError` (`none`).  Escapes of 0x80 and above
start multi-byte UTF-8 sequences in the full builtin; they are modelled as
errors here, and every claim below evaluates the function only on
percent-free values, where it is the identity. -/
def decodeURIComponentOpt : Str → Option Str
  | [] => some []
  | c :: rest =>
    if c = '%' then
      match rest with
      | c1 :: c2 :: rest2 =>
        match hexVal c1, hexVal c2 with
        | some hi, some lo =>
          if hi * 16 + lo < 128 then
            (decodeURIComponentOpt rest2).map (fun ds => Char.ofNat (hi * 16 + lo) :: ds)
          else none
        | _, _ => none
      | _ => none
    else (decodeURIComponentOpt rest).map (fun ds => c :: ds)

/-- Result of a JavaScript computation that can throw. -/
inductive JsResult (α : Type)
  | ok (a : α)
  | threw
deriving Repr, DecidableEq

/-- Model of `params[key] = value` on a plain object whose keys are not
array indices: an existing key keeps its position and gets the new value, a
new key is appended. -/
def objSet (obj : List (Str × Str)) (key v : Str) : List (Str × Str) :=
  if obj.any (fun kv => kv.1 = key) then
    obj.map (fun kv => if kv.1 = key then (key, v) else kv)
  else obj ++ [(key, v)]

/-- Parameter-extraction loop of `resolveRoute` (`src/runtime.ts` lines
122-129): pair the i-th name with capture group i+1, skip falsy (empty) names
and `undefined` values, decode the rest (which can throw). -/
def extractParamsGo : List Str → List (Option Str) → List (Str × Str) →
    JsResult (List (Str × Str))
  | [], _, params => JsResult.ok params
  | name :: names, groups, params =>
    match name.isEmpty, groups.head?.join with
    | false, some v =>
      match decodeURIComponentOpt v with
      | some d => extractParamsGo names groups.tail (objSet params name d)
      | none => JsResult.threw
    | _, _ => extractParamsGo names groups.tail params

/-- Parameter extraction of `resolveRoute` starting from the empty object. -/
def extractParams (paramNames : List Str) (groups : List (Option Str)) :
    JsResult (List (Str × Str)) :=
  extractParamsGo paramNames groups []

/-- One-route step of `resolveRoute` in `src/runtime.ts`: run the compiled
regex and on a match extract the parameters. -/
def regexMatchRoute (route : RouteRecord) (normalizedPath : Str) :
    JsResult (Option (List (Str × Str))) :=
  match regexExec route.regex normalizedPath with
  | none => JsResult.ok none
  | some groups =>
    match extractParams route.paramNames groups with
    | JsResult.ok params => JsResult.ok (some params)
    | JsResult.threw => JsResult.threw

/-- Manifest loop of `resolveRoute` in `src/runtime.ts`. -/
def resolveRouteGo : List RouteRecord → Str → JsResult (Option (RouteRecord × List (Str × Str)))
  | [], _ => JsResult.ok none
  | route :: rest, p =>
    match regexMatchRoute route p with
    | JsResult.ok none => resolveRouteGo rest p
    | JsResult.ok (some params) => JsResult.ok (some (route, params))
    | JsResult.threw => JsResult.threw

/-- Model of `resolveRoute` in `src/runtime.ts` lines 109-136: normalize the
empty pathname to `"/"`, then return the first regex match with its decoded
parameters. -/
def resolveRoute (routeManifest : List RouteRecord) (pathname : Str) :
    JsResult (Option (RouteRecord × List (Str × Str))) :=
  resolveRouteGo routeManifest (if pathname.isEmpty then ['/'] else pathname)

/-! ### Query parsing and `navigate`, `src/runtime.ts` -/

/-- Splitting on `'&'` for the query-pair scan of `URLSearchParams`. -/
def splitAmpAux : Str → Str → List Str
  | [], acc => [acc.reverse]
  | c :: cs, acc =>
    if c = '&' then acc.reverse :: splitAmpAux cs [] else splitAmpAux cs (c :: acc)

/-- Key/value split of one query pair at its first `'='`. -/
def pairOfPiece : Str → Str × Str
  | [] => ([], [])
  | '=' :: rest => ([], rest)
  | c :: rest =>
    let kv := pairOfPiece rest
    (c :: kv.1, kv.2)

/-- Model of `application/x-www-form-urlencoded` percent decoding on its
ASCII fragment, as `URLSearchParams` applies it: `'+'` becomes a space, a
well-formed `%XX` escape below 0x80 decodes, and a malformed escape is kept
verbatim (this parser never throws).  Escapes of 0x80 and above start UTF-8
sequences in the full algorithm; the claims below only evaluate this on
escape-free input, where it is the identity. -/
def formDecodeN : Nat → Str → Str
  | 0, _ => []
  | _ + 1, [] => []
  | fuel + 1, '+' :: rest => ' ' :: formDecodeN fuel rest
  | fuel + 1, '%' :: rest =>
    match rest with
    | c1 :: c2 :: rest2 =>
      match hexVal c1, hexVal c2 with
      | some hi, some lo =>
        if hi * 16 + lo < 128 then Char.ofNat (hi * 16 + lo) :: formDecodeN fuel rest2
        else '%' :: formDecodeN fuel rest
      | _, _ => '%' :: formDecodeN fuel rest
    | _ => '%' :: formDecodeN fuel rest
  | fuel + 1, c :: rest => c :: formDecodeN fuel rest

/-- Decoding loop with enough fuel for the whole input (every step of
`formDecodeN` consumes at least one character, so `s.length` steps always
finish the scan). -/
def formDecode (s : Str) : Str := formDecodeN s.length s

/-- Model of `parseQueryString` in `src/runtime.ts` lines 80-93: empty or
`"?"` searches give the empty object, otherwise each `&`-separated pair of
the `URLSearchParams` (which strips one leading `'?'` and skips empty pieces)
is assigned into the query object in order. -/
def parseQueryString (search : Str) : List (Str × Str) :=
  if search.isEmpty ∨ search = strOf "?" then []
  else
    let stripped := if search.head? = some '?' then search.tail else search
    ((splitAmpAux stripped []).filter (fun piece => !piece.isEmpty)).foldl
      (fun query piece =>
        let kv := pairOfPiece piece
        objSet query (formDecode kv.1) (formDecode kv.2))
      []

/-- Route state of the runtime router (`RouteState` in `src/types.ts`), with
the query as the ordered key/value list of the underlying object. -/
structure RouteState where
  path : Str
  params : List (Str × Str)
  query : List (Str × Str)
deriving Repr, DecidableEq

/-- Observable outcome of a `navigate` call in `src/runtime.ts`: either the
idempotent early return, or a `resolveAndRender(path, query, true, replace)`
invocation with the given arguments. -/
inductive NavAction
  | idempotentReturn
  | resolveAndRender (path : Str) (query : List (Str × Str)) (replace : Bool)
deriving Repr, DecidableEq

/-- Target computation of `navigate(to, options)` in `src/runtime.ts` lines
288-305: split `to` at its first `'?'` (the JavaScript `to.split("?")`
destructuring keeps only the piece between the first and second `'?'`),
parse the query, and resolve a relative path against the current route's
directory.  The `JSON.stringify(query) === JSON.stringify(currentRoute.query)`
comparison in `navigate` is modelled as equality of the ordered key/value
lists: both objects are built by string-key assignment, so `JSON.stringify`
serializes exactly those keys in that order and is injective on them. -/
def navTarget (currentRoute : RouteState) (toArg : Str) : Str × List (Str × Str) :=
  let pq : Str × List (Str × Str) :=
    if toArg.contains '?' then
      let pathname := toArg.takeWhile (fun c => c ≠ '?')
      let afterFirst := (toArg.dropWhile (fun c => c ≠ '?')).tail
      let search := afterFirst.takeWhile (fun c => c ≠ '?')
      (if pathname.isEmpty then ['/'] else pathname, parseQueryString ('?' :: search))
    else (toArg, [])
  let path :=
    if pq.1.head? = some '/' then pq.1
    else
      let currentDir := List.intercalate ['/'] (splitOnSlash currentRoute.path).dropLast
      currentDir ++ '/' :: pq.1
  (path, pq.2)

/-- Dispatch decision of `navigate` (`src/runtime.ts` lines 307-320): compare
the normalized target path against the normalized current path and the parsed
query against the current query, and either return early or invoke
`resolveAndRender`. -/
def navigate (currentRoute : RouteState) (toArg : Str) (replace : Bool) : NavAction :=
  let t := navTarget currentRoute toArg
  let normalizedPath := if t.1.isEmpty then ['/'] else t.1
  let currentPath := if currentRoute.path.isEmpty then ['/'] else currentRoute.path
  if normalizedPath = currentPath ∧ t.2 = currentRoute.query then
    NavAction.idempotentReturn
  else NavAction.resolveAndRender t.1 t.2 replace

/-! ### Listener dispatch, `src/events.js` and `src/runtime.ts` -/

/-- Observable behavior of a subscribed route-change listener: whether its
body throws when invoked. -/
structure ListenerB where
  throws : Bool
deriving Repr, DecidableEq

/-- Model of `_dispatchRouteChange` in the V0 event bus (`src/events.js` lines
142-146), iterating from listener index `i`: the loop body calls each
subscriber with no try/catch, so a throwing listener ends the dispatch and
the exception propagates.  Returns the indices invoked and whether the
dispatch threw. -/
def dispatchFrom : List ListenerB → Nat → List Nat × Bool
  | [], _ => ([], false)
  | l :: rest, i =>
    if l.throws then ([i], true)
    else
      let r := dispatchFrom rest (i + 1)
      (i :: r.1, r.2)

/-- Model of `_dispatchRouteChange` over the subscriber set in insertion
order. -/
def dispatchRouteChange (subs : List ListenerB) : List Nat × Bool :=
  dispatchFrom subs 0

/-- Model of `notifyListeners` in `src/runtime.ts` lines 265-273, iterating
from index `i`: every call is wrapped in try/catch, so each subscriber is
invoked whether or not earlier ones threw, and no exception escapes. -/
def notifyFrom : List ListenerB → Nat → List Nat × Bool
  | [], _ => ([], false)
  | _ :: rest, i =>
    let r := notifyFrom rest (i + 1)
    (i :: r.1, r.2)

/-- Model of `notifyListeners` over the subscriber set in insertion order.
It reads `currentRoute` only as an argument value and performs no write to
it. -/
def notifyListeners (subs : List ListenerB) : List Nat × Bool :=
  notifyFrom subs 0

/-! ### History bridge, `src/history.js`

The bridge delegates to the platform: `push(path)` is
`history.pushState({}, '', path)` and `current()` is
`window.location.pathname`.  The platform is modelled on its path-absolute
ASCII fragment: pushing a path-absolute url splits it at the first `'?'` or
`'#'` into path, query and fragment, and the stored pathname is the URL
serialization of the path, which percent-encodes characters outside a safe
set.  The modelled safe set is conservative (alphanumerics and
`/ - _ . ~`); the round-trip claim quantifies only over it. -/

/-- Characters the modelled URL path serializer keeps verbatim. -/
def isSafePathChar (c : Char) : Bool :=
  c.isAlphanum || c = '/' || c = '-' || c = '_' || c = '.' || c = '~'

/-- Upper-case hexadecimal digit of a value below 16. -/
def hexDigitChar (n : Nat) : Char :=
  if n < 10 then Char.ofNat ('0'.toNat + n) else Char.ofNat ('A'.toNat + n - 10)

/-- Percent-encoding of one character (ASCII model). -/
def percentEncodeChar (c : Char) : Str :=
  ['%', hexDigitChar (c.toNat / 16 % 16), hexDigitChar (c.toNat % 16)]

/-- URL path serialization on the modelled fragment: safe characters pass
through, everything else is percent-encoded. -/
def serializePath (p : Str) : Str :=
  p.flatMap (fun c => if isSafePathChar c then [c] else percentEncodeChar c)

/-- Browser location model: the components `window.location` exposes as
`pathname`, `search` and `hash`. -/
structure Location where
  pathname : Str
  search : Str
  urlHash : Str
deriving Repr, DecidableEq

/-- Dot-segment removal of the URL parser's path state, over the
slash-separated pieces of the path (empty pieces kept, as browsers keep
them): a `..` piece removes the previous piece, a `.` piece is dropped,
anything else is appended. -/
def removeDotSegments (pieces : List Str) : List Str :=
  pieces.foldl
    (fun acc piece =>
      if piece = strOf ".." then acc.dropLast
      else if piece = strOf "." then acc
      else acc ++ [piece])
    []

/-- Dot-segment removal including the parser's trailing behavior: a final
`.` or `..` piece leaves a trailing slash, i.e. an empty final segment. -/
def normalizePathSegments (pieces : List Str) : List Str :=
  let base := removeDotSegments pieces
  match pieces.getLast? with
  | some lastPiece =>
    if lastPiece = strOf "." ∨ lastPiece = strOf ".." then base ++ [[]] else base
  | none => base

/-- Joining path segments with slashes (left inverse of `splitOnSlash`). -/
def joinSlash : List Str → Str
  | [] => []
  | [x] => x
  | x :: y :: rest => x ++ '/' :: joinSlash (y :: rest)

/-- Model of `history.pushState({}, '', path)` followed by the browser's URL
resolution, for a path-absolute url string (a leading slash not followed by
a second slash): split at the first `'?'` or `'#'` into path, query and
fragment; the stored pathname is the path's slash-separated segments after
dot-segment removal, each segment percent-encoded outside the safe set.  A
string starting with `//` is protocol-relative (it carries an authority) and
any other form resolves against the current URL; both are outside the
modelled fragment and leave the location unchanged here — the round-trip
claim excludes them. -/
def pushState (loc : Location) (url : Str) : Location :=
  if url.head? = some '/' ∧ (url.drop 1).head? ≠ some '/' then
    let path := url.takeWhile (fun c => c ≠ '?' ∧ c ≠ '#')
    let rest := url.dropWhile (fun c => c ≠ '?' ∧ c ≠ '#')
    { pathname :=
        '/' :: joinSlash
          ((normalizePathSegments (splitOnSlash (path.drop 1))).map serializePath)
    , search := rest.takeWhile (fun c => c ≠ '#')
    , urlHash := rest.dropWhile (fun c => c ≠ '#') }
  else loc

/-- Model of `push` in `src/history.js` lines 44-46. -/
def push (loc : Location) (path : Str) : Location := pushState loc path

/-- Model of `current` in `src/history.js` lines 82-84:
`window.location.pathname`. -/
def current (loc : Location) : Str := loc.pathname

/-- Path strings of the amended round-trip claim: path-absolute with a single
leading slash, made of characters the URL parser stores verbatim, and with
no `.` or `..` segments (which the parser normalizes away — see the
counterexample). -/
def isValidPathString (p : Str) : Bool :=
  p.head? = some '/' && (p.drop 1).head? ≠ some '/' && p.all isSafePathChar
    && (splitOnSlash (p.drop 1)).all
        (fun piece => piece ≠ strOf "." && piece ≠ strOf "..")

/-! ### Generated router navigation machine, `src/template.js`

The generated router (lines 41-170 of the template) keeps module-level
`navigationToken` and `activeCleanup` variables.  `navigate` resolves, bumps
the token and awaits `mountRoute`, whose only suspension point is the dynamic
`import`; `mountRoute` re-checks its token on entry, after the teardown and
after the import.  The machine below splits a navigation into its synchronous
prefix (up to the import) and the continuation that runs when the import
resolves, so overlapping navigations are exactly interleavings of these
blocks. -/

/-- Lookup of `__ZENITH_MANIFEST__.chunks[key]`; the chunks object maps route
paths to chunk urls in insertion order. -/
def chunkLookup (chunks : List (Str × Str)) (key : Str) : Option Str :=
  (chunks.find? (fun kv => kv.1 = key)).map (fun kv => kv.2)

/-- Inner segment walk of the template resolver (template.js lines 66-77),
called on segment lists of equal length: `:name` captures into the params
object, anything else must match literally. -/
def walkT : List Str → List Str → List (Str × Str) → Option (List (Str × Str))
  | [], _, params => some params
  | _ :: _, [], _ => none
  | rseg :: rs, pseg :: ps, params =>
    if rseg.head? = some ':' then walkT rs ps (objSet params rseg.tail pseg)
    else if rseg = pseg then walkT rs ps params else none

/-- Model of `resolveRoute` in the generated router (template.js lines
50-85): a truthy direct chunk hit returns immediately with frozen empty
params, otherwise the first route key whose segments walk-match wins. -/
def resolveRouteT (chunks : List (Str × Str)) (pathname : Str) :
    Option (Str × List (Str × Str)) :=
  if ((chunkLookup chunks pathname).getD []).isEmpty = false then some (pathname, [])
  else
    let pathnameSegments := splitPath pathname
    chunks.findSome? (fun kv =>
      let routeSegments := splitPath kv.1
      if routeSegments.length ≠ pathnameSegments.length then none
      else (walkT routeSegments pathnameSegments []).map (fun ps => (kv.1, ps)))

/-- Side effects observable in the generated router. -/
inductive TEv
  | teardown
  | mount (route : Str)
  | historyPush (path : Str)
deriving Repr, DecidableEq

/-- Module-level mutable state of the generated router: the navigation token,
whether a cleanup function is currently registered, and the log of side
effects performed so far. -/
structure TState where
  navigationToken : Nat
  activeCleanup : Bool
  log : List TEv
deriving Repr, DecidableEq

/-- Model of `teardownRuntime()` (template.js lines 87-92): invoke and clear
the registered cleanup, if any. -/
def teardownRuntime (s : TState) : TState :=
  if s.activeCleanup then
    { s with activeCleanup := false, log := s.log ++ [TEv.teardown] }
  else s

/-- Synchronous prefix of `mountRoute(route, params, token)` (template.js
lines 94-98), up to the `await import(...)` suspension point: the stale-token
guard, the teardown, and the guard again.  The boolean reports whether
execution reached the import. -/
def mountRouteSync (token : Nat) (s : TState) : TState × Bool :=
  if token ≠ s.navigationToken then (s, false)
  else
    let s1 := teardownRuntime s
    if token ≠ s1.navigationToken then (s1, false) else (s1, true)

/-- Continuation of `mountRoute` after its import resolves (template.js lines
99-107): re-check the token, then mount.  The page module's mount function is
modelled as returning a cleanup function, so a completed mount registers
`activeCleanup`. -/
def mountRouteFinish (route : Str) (token : Nat) (s : TState) : TState :=
  if token ≠ s.navigationToken then s
  else { s with activeCleanup := true, log := s.log ++ [TEv.mount route] }

/-- Pending continuation of a navigation suspended at its import. -/
structure TPending where
  route : Str
  token : Nat
deriving Repr, DecidableEq

/-- Synchronous prefix of `navigate(pathname, push, url)` in the generated
router (template.js lines 109-120): resolve (an unmatched path returns with
no effect), increment `navigationToken`, optionally push a history entry,
then run the synchronous prefix of `mountRoute`.  Returns the pending
continuation when execution suspended at the import. -/
def navigateStartT (chunks : List (Str × Str)) (pathname : Str) (pushEntry : Bool)
    (s : TState) : TState × Option TPending :=
  match resolveRouteT chunks pathname with
  | none => (s, none)
  | some nxt =>
    let token := s.navigationToken + 1
    let s1 : TState :=
      { s with
        navigationToken := token
        log := if pushEntry then s.log ++ [TEv.historyPush pathname] else s.log }
    let ms := mountRouteSync token s1
    (ms.1, if ms.2 then some ⟨nxt.1, token⟩ else none)

/-- Overlapping pair of navigations in the generated router: navigation A is
issued, navigation B is issued before A's import resolves, then the two
imports resolve in either order (`aResolvesFirst` chooses which). -/
def overlapRun (chunks : List (Str × Str)) (pa pb : Str) (pushA pushB : Bool)
    (aResolvesFirst : Bool) (s0 : TState) : TState :=
  let r1 := navigateStartT chunks pa pushA s0
  let r2 := navigateStartT chunks pb pushB r1.1
  let finA := fun s =>
    match r1.2 with
    | some pend => mountRouteFinish pend.route pend.token s
    | none => s
  let finB := fun s =>
    match r2.2 with
    | some pend => mountRouteFinish pend.route pend.token s
    | none => s
  if aResolvesFirst then finB (finA r2.1) else finA (finB r2.1)

/-! ### V0 router navigation, `src/router.js`

The V0 `_resolve` has no navigation token: after its `await
result.route.load(...)` suspension it mounts and dispatches unconditionally.
The split below mirrors `_resolve` around that single suspension point, with
`mount` and `cleanup` functions configured as in the repository's own browser
harness. -/

/-- Observable effects of the V0 router. -/
inductive V0Ev
  | cleanup
  | mount (path : Str)
  | routeChange (path : Str) (matched : Bool)
deriving Repr, DecidableEq

/-- Module state of the V0 router: the `_hasMounted` flag and the log of
effects. -/
structure V0State where
  hasMounted : Bool
  log : List V0Ev
deriving Repr, DecidableEq

/-- Synchronous prefix of `_resolve(path)` (`src/router.js` lines 50-64) up to
the load suspension: match, dispatch immediately on no-match, otherwise tear
down the previous page when something was mounted before.  Returns the
pending continuation when the resolve suspended at the load. -/
def v0ResolveStart (routes : List RouteEntry) (path : Str) (s : V0State) :
    V0State × Option (Str × List (Str × Str)) :=
  match matchRoute routes path with
  | none => ({ s with log := s.log ++ [V0Ev.routeChange path false] }, none)
  | some result =>
    let s1 := if s.hasMounted then { s with log := s.log ++ [V0Ev.cleanup] } else s
    (s1, some (path, result.2))

/-- Continuation of `_resolve` after the load resolves (`src/router.js` lines
64-76): mount and dispatch unconditionally — the V0 router has no token
check here. -/
def v0ResolveFinish (path : Str) (s : V0State) : V0State :=
  { hasMounted := true
  , log := s.log ++ [V0Ev.mount path, V0Ev.routeChange path true] }

/-- Routes of the overlapping-navigation scenario on the V0 router. -/
def v0OverlapRoutes : List RouteEntry :=
  [⟨strOf "/a", 0⟩, ⟨strOf "/b", 1⟩]

/-- Overlapping navigations `/a` then `/b` on the V0 router, starting from a
state with a page already mounted: `/b` is issued before the `/a` load
resolves, the `/b` load resolves first, and the superseded `/a` load resolves
last. -/
def v0OverlapRun : V0State :=
  let r1 := v0ResolveStart v0OverlapRoutes (strOf "/a") ⟨true, []⟩
  let r2 := v0ResolveStart v0OverlapRoutes (strOf "/b") r1.1
  let s3 :=
    match r2.2 with
    | some pend => v0ResolveFinish pend.1 r2.1
    | none => r2.1
  match r1.2 with
  | some pend => v0ResolveFinish pend.1 s3
  | none => s3

/-! ### Theorems.  Shared helper lemmas first. -/

/-- Dynamic parameter names of a segment list: the tails of the segments
starting with `':'`, in order. -/
def dynNamesSegs (segs : List Str) : List Str :=
  segs.filterMap (fun s => if s.head? = some ':' then some s.tail else none)

/-- Match/no-match outcome view of a `matchPath` result. -/
def matchOutcome (r : MatchPathResult) : Option (List (Str × Str)) :=
  if r.matched then some r.params else none

lemma matchSegs_false_params (rs : List Str) :
    ∀ (ps seen : List Str) (acc : List (Str × Str)),
      (matchSegs rs ps seen acc).matched = false →
      (matchSegs rs ps seen acc).params = [] := by
  induction rs with
  | nil => intro ps seen acc h; simp [matchSegs] at h
  | cons rseg rest ih =>
    intro ps seen acc h
    cases ps with
    | nil => simp [matchSegs]
    | cons pseg ps2 =>
      simp only [matchSegs] at h ⊢
      by_cases hcol : rseg.head? = some ':'
      · simp only [if_pos hcol] at h ⊢
        by_cases hval : isValidParamName rseg.tail = true
        · simp only [if_pos hval] at h ⊢
          by_cases hseen : rseg.tail ∈ seen
          · simp only [if_pos hseen]
          · simp only [if_neg hseen] at h ⊢
            exact ih ps2 _ _ h
        · simp only [if_neg hval]
      · simp only [if_neg hcol] at h ⊢
        by_cases heq : rseg = pseg
        · simp only [if_pos heq] at h ⊢
          exact ih ps2 _ _ h
        · simp only [if_neg heq]

lemma matchSegs_matched_nodup (rs : List Str) :
    ∀ (ps seen : List Str) (acc : List (Str × Str)),
      (matchSegs rs ps seen acc).matched = true →
      (dynNamesSegs rs).Nodup ∧ ∀ n ∈ dynNamesSegs rs, n ∉ seen := by
  induction rs with
  | nil => intro ps seen acc _; simp [dynNamesSegs]
  | cons rseg rest ih =>
    intro ps seen acc h
    cases ps with
    | nil => simp [matchSegs] at h
    | cons pseg ps2 =>
      simp only [matchSegs] at h
      by_cases hcol : rseg.head? = some ':'
      · rw [if_pos hcol] at h
        split at h
        · split at h
          · simp at h
          · rename_i hval hseen
            have hrest := ih ps2 _ _ h
            have hdisj : ∀ n ∈ dynNamesSegs rest, n ∉ rseg.tail :: seen := hrest.2
            constructor
            · simp only [dynNamesSegs, List.filterMap_cons, if_pos hcol]
              refine List.Nodup.cons ?_ hrest.1
              intro hmem
              exact (hdisj _ hmem) (List.mem_cons_self _ _)
            · intro n hn
              simp only [dynNamesSegs, List.filterMap_cons, if_pos hcol] at hn
              rcases List.mem_cons.mp hn with hEq | hmem
              · subst hEq; exact hseen
              · intro hns
                exact (hdisj _ hmem) (List.mem_cons_of_mem _ hns)
        · simp at h
      · rw [if_neg hcol] at h
        split at h
        · have hrest := ih ps2 _ _ h
          constructor
          · simpa [dynNamesSegs, List.filterMap_cons, hcol] using hrest.1
          · intro n hn
            simp only [dynNamesSegs, List.filterMap_cons, if_neg hcol] at hn
            exact hrest.2 n hn
        · simp at h

/-- C9: `matchPath` never leaks partial captures — whatever the reason for a
`matched:false` report (count mismatch, invalid or duplicate parameter name,
or literal mismatch, possibly after some captures were already taken), the
returned params object is empty. -/
theorem matchPath_no_partial_captures :
    ∀ (routePath pathname : Str),
      (matchPath routePath pathname).matched = false →
      (matchPath routePath pathname).params = [] := by
  intro routePath pathname h
  simp only [matchPath] at h ⊢
  by_cases hlen : (splitPath routePath).length ≠ (splitPath pathname).length
  · simp only [if_pos hlen]
  · simp only [if_neg hlen] at h ⊢
    exact matchSegs_false_params _ _ _ _ h

/-- Witness for C9: a route whose dynamic segment captures before a later
literal segment fails still reports empty params. -/
theorem matchPath_no_partial_captures_witness :
    (matchPath (strOf "/users/:id/edit") (strOf "/users/42/delete")).matched = false ∧
    (matchPath (strOf "/users/:id/edit") (strOf "/users/42/delete")).params = [] :=
  ⟨by decide, matchPath_no_partial_captures _ _ (by decide)⟩

lemma matchRoute_some_spec :
    ∀ (routes : List RouteEntry) (pathname : Str) (res : RouteEntry × List (Str × Str)),
      matchRoute routes pathname = some res →
      ∃ i, ∃ hi : i < routes.length,
        routes.get ⟨i, hi⟩ = res.1 ∧
        (matchPath res.1.path pathname).matched = true ∧
        res.2 = (matchPath res.1.path pathname).params ∧
        ∀ r ∈ routes.take i, (matchPath r.path pathname).matched = false := by
  intro routes
  induction routes with
  | nil => intro pathname res h; simp [matchRoute] at h
  | cons route rest ih =>
    intro pathname res h
    simp only [matchRoute] at h
    by_cases hm : (matchPath route.path pathname).matched = true
    · simp only [if_pos hm, Option.some.injEq] at h
      refine ⟨0, by simp, ?_, ?_, ?_, ?_⟩
      · simp [← h]
      · rw [← h]; exact hm
      · rw [← h]
      · simp
    · simp only [if_neg hm] at h
      obtain ⟨i, hi, hget, hmt, hpar, hprev⟩ := ih pathname res h
      refine ⟨i + 1, by simpa using Nat.succ_lt_succ hi, by simpa using hget, hmt, hpar, ?_⟩
      intro r hr
      simp only [List.take_succ_cons, List.mem_cons] at hr
      rcases hr with hEq | hmem
      · subst hEq; simpa using hm
      · exact hprev r hmem

lemma matchRoute_none_spec :
    ∀ (routes : List RouteEntry) (pathname : Str),
      matchRoute routes pathname = none ↔
        ∀ r ∈ routes, (matchPath r.path pathname).matched = false := by
  intro routes
  induction routes with
  | nil => intro pathname; simp [matchRoute]
  | cons route rest ih =>
    intro pathname
    simp only [matchRoute]
    by_cases hm : (matchPath route.path pathname).matched = true
    · simp [if_pos hm, hm]
    · simp only [if_neg hm]
      constructor
      · intro h r hr
        rcases List.mem_cons.mp hr with hEq | hmem
        · subst hEq; simpa using hm
        · exact ((ih pathname).mp h) r hmem
      · intro h
        exact (ih pathname).mpr (fun r hr => h r (List.mem_cons_of_mem _ hr))

/-- Example manifest of the C5 claim, in declaration order. -/
def usersRoutes : List RouteEntry :=
  [⟨strOf "/users/new", 0⟩, ⟨strOf "/users/:id", 1⟩]

/-- Example manifest of the C5 claim with declaration order reversed. -/
def usersRoutesRev : List RouteEntry :=
  [⟨strOf "/users/:id", 1⟩, ⟨strOf "/users/new", 0⟩]

lemma resolveRouteGo_some_spec :
    ∀ (m : List RouteRecord) (p : Str) (res : RouteRecord × List (Str × Str)),
      resolveRouteGo m p = JsResult.ok (some res) →
      ∃ i, ∃ hi : i < m.length,
        m.get ⟨i, hi⟩ = res.1 ∧
        regexMatchRoute res.1 p = JsResult.ok (some res.2) ∧
        ∀ r ∈ m.take i, regexMatchRoute r p = JsResult.ok none := by
  intro m
  induction m with
  | nil => intro p res h; simp [resolveRouteGo] at h
  | cons route rest ih =>
    intro p res h
    simp only [resolveRouteGo] at h
    cases hm : regexMatchRoute route p with
    | threw =>
      simp only [hm] at h
      exact JsResult.noConfusion h
    | ok o =>
      cases o with
      | none =>
        simp only [hm] at h
        obtain ⟨i, hi, hget, hmt, hprev⟩ := ih p res h
        refine ⟨i + 1, by simpa using Nat.succ_lt_succ hi, by simpa using hget, hmt, ?_⟩
        intro r hr
        simp only [List.take_succ_cons, List.mem_cons] at hr
        rcases hr with hEq | hmem
        · subst hEq; exact hm
        · exact hprev r hmem
      | some params =>
        simp only [hm, JsResult.ok.injEq, Option.some.injEq] at h
        refine ⟨0, by simp, by simp [← h], ?_, by simp⟩
        rw [← h]
        exact hm

lemma resolveRouteGo_none_spec :
    ∀ (m : List RouteRecord) (p : Str),
      resolveRouteGo m p = JsResult.ok none ↔
        ∀ r ∈ m, regexMatchRoute r p = JsResult.ok none := by
  intro m
  induction m with
  | nil => intro p; simp [resolveRouteGo]
  | cons route rest ih =>
    intro p
    simp only [resolveRouteGo]
    cases hm : regexMatchRoute route p with
    | threw =>
      constructor
      · intro h; exact absurd h (by simp)
      · intro h
        have h2 := h route (List.mem_cons_self _ _)
        rw [h2] at hm
        exact JsResult.noConfusion hm
    | ok o =>
      cases o with
      | none =>
        constructor
        · intro h r hr
          rcases List.mem_cons.mp hr with rfl | hmem
          · exact hm
          · exact (ih p).mp h r hmem
        · intro h
          exact (ih p).mpr (fun r hr => h r (List.mem_cons_of_mem _ hr))
      | some params =>
        constructor
        · intro h; exact absurd h (by simp)
        · intro h
          have h2 := h route (List.mem_cons_self _ _)
          rw [h2] at hm
          exact absurd hm (by simp)

/-- Counterexample for C5: on the manifest holding only `/users/:id`, the
regex strategy's pattern matches the pathname `/users/%` and captures `%`,
but `decodeURIComponent('%')` throws a `URIError`, so `resolveRoute` in
`src/runtime.ts` neither returns the matching route with its params nor
`null` — it throws, against the claim's never-throws guarantee. -/
theorem resolve_throws_counterexample :
    regexExec (generateRouteDefinition (strOf "/users/:id")).regex (strOf "/users/%")
      = some [some (strOf "%")] ∧
    resolveRoute [generateRouteDefinition (strOf "/users/:id")] (strOf "/users/%")
      = JsResult.threw := by
  refine ⟨by decide, by decide⟩

/-- C5 amended: resolution over a manifest iterates in the given order and
returns the first route whose matcher succeeds together with its extracted
params, with no backtracking (every earlier route failed), and no match
anywhere is the explicit `null`.  The structural V0 `matchRoute` strategy in
addition never throws (it is a total function); the regex `resolveRoute`
strategy obeys the same first-match discipline — a returned route is the
first whose regex matched, and `null` is returned exactly when every route's
regex step yields no match — but it can throw instead of returning a value
when a matched route's captured parameter fails percent-decoding
(counterexample above).  On the example manifest, `/users/new` is won by the
static route with empty params and `/users/42` by the dynamic route with id
`42`; with declaration order reversed, `/users/new` is won by `:id`
capturing `new`. -/
theorem resolver_first_match_amended :
    (∀ (routes : List RouteEntry) (pathname : Str) (res : RouteEntry × List (Str × Str)),
        matchRoute routes pathname = some res →
        ∃ i, ∃ hi : i < routes.length,
          routes.get ⟨i, hi⟩ = res.1 ∧
          (matchPath res.1.path pathname).matched = true ∧
          res.2 = (matchPath res.1.path pathname).params ∧
          ∀ r ∈ routes.take i, (matchPath r.path pathname).matched = false) ∧
    (∀ (routes : List RouteEntry) (pathname : Str),
        matchRoute routes pathname = none ↔
          ∀ r ∈ routes, (matchPath r.path pathname).matched = false) ∧
    (∀ (m : List RouteRecord) (pathname : Str) (res : RouteRecord × List (Str × Str)),
        resolveRoute m pathname = JsResult.ok (some res) →
        ∃ i, ∃ hi : i < m.length,
          m.get ⟨i, hi⟩ = res.1 ∧
          regexMatchRoute res.1 (if pathname.isEmpty then ['/'] else pathname)
            = JsResult.ok (some res.2) ∧
          ∀ r ∈ m.take i,
            regexMatchRoute r (if pathname.isEmpty then ['/'] else pathname)
              = JsResult.ok none) ∧
    (∀ (m : List RouteRecord) (pathname : Str),
        resolveRoute m pathname = JsResult.ok none ↔
          ∀ r ∈ m,
            regexMatchRoute r (if pathname.isEmpty then ['/'] else pathname)
              = JsResult.ok none) ∧
    matchRoute usersRoutes (strOf "/users/new") = some (⟨strOf "/users/new", 0⟩, []) ∧
    matchRoute usersRoutes (strOf "/users/42")
      = some (⟨strOf "/users/:id", 1⟩, [(strOf "id", strOf "42")]) ∧
    matchRoute usersRoutesRev (strOf "/users/new")
      = some (⟨strOf "/users/:id", 1⟩, [(strOf "id", strOf "new")]) :=
  ⟨matchRoute_some_spec, matchRoute_none_spec,
   fun m pathname res h => resolveRouteGo_some_spec m _ res h,
   fun m pathname => resolveRouteGo_none_spec m _,
   by decide, by decide, by decide⟩

/-- Witness for C5: the no-match characterization of the regex strategy
applied to a concrete manifest and pathname. -/
theorem resolver_first_match_amended_witness :
    ∀ r ∈ [generateRouteDefinition (strOf "/users/new")],
      regexMatchRoute r (if (strOf "/posts/7").isEmpty then ['/'] else strOf "/posts/7")
        = JsResult.ok none :=
  (resolver_first_match_amended.2.2.2.1 [generateRouteDefinition (strOf "/users/new")]
    (strOf "/posts/7")).mp (by decide)

lemma matchPath_dup_false (routePath pathname : Str)
    (hdup : ¬ (dynNamesSegs (splitPath routePath)).Nodup) :
    (matchPath routePath pathname).matched = false := by
  cases hm : (matchPath routePath pathname).matched with
  | false => rfl
  | true =>
    exfalso
    simp only [matchPath] at hm
    by_cases hlen : (splitPath routePath).length ≠ (splitPath pathname).length
    · simp [if_pos hlen] at hm
    · simp only [if_neg hlen] at hm
      exact hdup (matchSegs_matched_nodup _ _ _ _ hm).1

/-- Counterexample for C3: the claim quantifies over every matching strategy
the resolver may use, but the regex-based `resolveRoute` strategy matches a
duplicate-parameter route.  For the route `/:x/:x` and pathname `/a/b` the
structural matcher reports no match while `resolveRoute` returns a match with
`x` bound to `b` (the second capture overwrote the first). -/
theorem duplicate_params_counterexample :
    (matchPath (strOf "/:x/:x") (strOf "/a/b")).matched = false ∧
    resolveRoute [generateRouteDefinition (strOf "/:x/:x")] (strOf "/a/b")
      = JsResult.ok (some (generateRouteDefinition (strOf "/:x/:x"),
          [(strOf "x", strOf "b")])) := by
  constructor
  · decide
  · decide

/-- C3 amended: under the structural segment-walk matcher (`matchPath`, the
strategy the V0 resolver `matchRoute` uses), a route path whose dynamic
segments repeat a parameter name never matches any pathname, with no
parse-time error; consequently `matchRoute` never selects such a route.  The
regex-based `resolveRoute` strategy does not share this defense (see the
counterexample). -/
theorem duplicate_params_never_match :
    (∀ (routePath pathname : Str),
        ¬ (dynNamesSegs (splitPath routePath)).Nodup →
        (matchPath routePath pathname).matched = false) ∧
    (∀ (routes : List RouteEntry) (pathname : Str) (res : RouteEntry × List (Str × Str)),
        matchRoute routes pathname = some res →
        (dynNamesSegs (splitPath res.1.path)).Nodup) := by
  refine ⟨fun rp pn h => matchPath_dup_false rp pn h, ?_⟩
  intro routes pathname res h
  by_contra hdup
  obtain ⟨i, hi, _, hmt, _, _⟩ := matchRoute_some_spec routes pathname res h
  rw [matchPath_dup_false _ _ hdup] at hmt
  exact Bool.false_ne_true hmt

/-- Witness for C3: the amended statement applied to a concrete
duplicate-parameter route and pathname. -/
theorem duplicate_params_never_match_witness :
    (matchPath (strOf "/:y/:y") (strOf "/c/d")).matched = false :=
  duplicate_params_never_match.1 (strOf "/:y/:y") (strOf "/c/d") (by decide)

/-- Number of segments of a given kind. -/
def countKind (k : SegmentType) (segs : List ParsedSegment) : Nat :=
  (segs.filter (fun s => s.segmentType = k)).length

lemma countKind_cons (k : SegmentType) (s : ParsedSegment) (rest : List ParsedSegment) :
    countKind k (s :: rest)
      = (if s.segmentType = k then 1 else 0) + countKind k rest := by
  simp only [countKind, List.filter_cons]
  by_cases hd : s.segmentType = k
  · simp [hd, Nat.add_comm]
  · simp [hd]

lemma countKind_total (segs : List ParsedSegment) :
    countKind SegmentType.Static segs + countKind SegmentType.Dynamic segs
      + countKind SegmentType.CatchAll segs + countKind SegmentType.OptionalCatchAll segs
      = segs.length := by
  induction segs with
  | nil => simp [countKind]
  | cons s rest ih =>
    rw [countKind_cons, countKind_cons, countKind_cons, countKind_cons]
    cases h : s.segmentType <;> simp only [h, List.length_cons] <;> simp <;> omega

lemma foldl_scores (segs : List ParsedSegment) :
    ∀ n : Nat,
      segs.foldl (fun acc s => acc + SEGMENT_SCORES s.segmentType) n
        = n + 10 * countKind SegmentType.Static segs
            + 5 * countKind SegmentType.Dynamic segs
            + countKind SegmentType.CatchAll segs := by
  induction segs with
  | nil => intro n; simp [countKind]
  | cons s rest ih =>
    intro n
    simp only [List.foldl_cons]
    rw [ih, countKind_cons, countKind_cons, countKind_cons]
    cases h : s.segmentType <;> simp only [h, SEGMENT_SCORES] <;> simp <;> omega

lemma calculateRouteScore_eq (segs : List ParsedSegment) (h : segs ≠ []) :
    calculateRouteScore segs
      = 12 * countKind SegmentType.Static segs + 5 * countKind SegmentType.Dynamic segs
        + countKind SegmentType.CatchAll segs := by
  have hlen : segs.length ≠ 0 := fun hz => h (List.length_eq_zero.mp hz)
  simp only [calculateRouteScore, if_neg hlen]
  rw [foldl_scores]
  have hc : (segs.filter (fun s => s.segmentType = SegmentType.Static)).length
      = countKind SegmentType.Static segs := rfl
  omega

/-- Counterexample for C4: two routes of equal length where the route with
more Static segments (`/a/*x?/*y?`: one static, two optional catch-alls)
scores strictly lower than the route with more Dynamic segments
(`/:p/:q/:r`: three dynamics) — 12 against 15 — so "more Static always
outranks more Dynamic at equal length" fails as stated. -/
theorem scoring_order_counterexample :
    (parseRouteSegments (strOf "/a/*x?/*y?")).length
      = (parseRouteSegments (strOf "/:p/:q/:r")).length ∧
    countKind SegmentType.Static (parseRouteSegments (strOf "/a/*x?/*y?"))
      > countKind SegmentType.Static (parseRouteSegments (strOf "/:p/:q/:r")) ∧
    countKind SegmentType.Dynamic (parseRouteSegments (strOf "/:p/:q/:r"))
      > countKind SegmentType.Dynamic (parseRouteSegments (strOf "/a/*x?/*y?")) ∧
    calculateRouteScore (parseRouteSegments (strOf "/a/*x?/*y?"))
      < calculateRouteScore (parseRouteSegments (strOf "/:p/:q/:r")) := by
  decide

/-- C4 amended: the empty (root) segment sequence scores the sentinel 100,
and at equal segment count the kind ordering holds ceteris paribus — trading
Static for Dynamic segments (the other kind counts being equal) strictly
raises the score, as does trading Dynamic for CatchAll, and CatchAll for
OptionalCatchAll.  Without the ceteris-paribus condition the ordering fails
(see the counterexample). -/
theorem scoring_order_amended :
    calculateRouteScore [] = 100 ∧
    (∀ s1 s2 : List ParsedSegment,
        s1.length = s2.length → s1 ≠ [] →
        countKind SegmentType.CatchAll s1 = countKind SegmentType.CatchAll s2 →
        countKind SegmentType.OptionalCatchAll s1 = countKind SegmentType.OptionalCatchAll s2 →
        countKind SegmentType.Static s1 > countKind SegmentType.Static s2 →
        calculateRouteScore s1 > calculateRouteScore s2) ∧
    (∀ s1 s2 : List ParsedSegment,
        s1.length = s2.length → s1 ≠ [] →
        countKind SegmentType.Static s1 = countKind SegmentType.Static s2 →
        countKind SegmentType.OptionalCatchAll s1 = countKind SegmentType.OptionalCatchAll s2 →
        countKind SegmentType.Dynamic s1 > countKind SegmentType.Dynamic s2 →
        calculateRouteScore s1 > calculateRouteScore s2) ∧
    (∀ s1 s2 : List ParsedSegment,
        s1.length = s2.length → s1 ≠ [] →
        countKind SegmentType.Static s1 = countKind SegmentType.Static s2 →
        countKind SegmentType.Dynamic s1 = countKind SegmentType.Dynamic s2 →
        countKind SegmentType.CatchAll s1 > countKind SegmentType.CatchAll s2 →
        calculateRouteScore s1 > calculateRouteScore s2) := by
  refine ⟨by decide, ?_, ?_, ?_⟩ <;>
  · intro s1 s2 hlen h1 ha hb hgt
    have h2 : s2 ≠ [] := by
      intro hz
      subst hz
      simp only [List.length_nil] at hlen
      exact h1 (List.length_eq_zero.mp hlen)
    have t1 := countKind_total s1
    have t2 := countKind_total s2
    rw [calculateRouteScore_eq s1 h1, calculateRouteScore_eq s2 h2]
    omega

/-- Witness for C4: the Static-for-Dynamic trade applied to the concrete
equal-length routes `/a/b` and `/a/:q`. -/
theorem scoring_order_amended_witness :
    calculateRouteScore (parseRouteSegments (strOf "/a/b"))
      > calculateRouteScore (parseRouteSegments (strOf "/a/:q")) :=
  scoring_order_amended.2.1 _ _ (by decide) (by decide) (by decide) (by decide) (by decide)

lemma mem_sortInsert (r x : RouteRecord) (l : List RouteRecord) :
    x ∈ sortInsert r l ↔ x = r ∨ x ∈ l := by
  induction l with
  | nil => simp [sortInsert]
  | cons y ys ih =>
    simp only [sortInsert]
    split
    · constructor
      · intro hx
        rcases List.mem_cons.mp hx with rfl | hx2
        · exact Or.inl rfl
        · exact Or.inr hx2
      · intro hx
        rcases hx with rfl | hx2
        · exact List.mem_cons_self _ _
        · exact List.mem_cons_of_mem _ hx2
    · constructor
      · intro hx
        rcases List.mem_cons.mp hx with rfl | hx2
        · exact Or.inr (List.mem_cons_self _ _)
        · rcases ih.mp hx2 with rfl | h3
          · exact Or.inl rfl
          · exact Or.inr (List.mem_cons_of_mem _ h3)
      · intro hx
        rcases hx with rfl | hx2
        · exact List.mem_cons_of_mem _ (ih.mpr (Or.inl rfl))
        · rcases List.mem_cons.mp hx2 with rfl | h3
          · exact List.mem_cons_self _ _
          · exact List.mem_cons_of_mem _ (ih.mpr (Or.inr h3))

lemma sortInsert_pairwise (r : RouteRecord) (l : List RouteRecord)
    (h : l.Pairwise (fun a b => b.score ≤ a.score)) :
    (sortInsert r l).Pairwise (fun a b => b.score ≤ a.score) := by
  induction l with
  | nil => simp [sortInsert]
  | cons y ys ih =>
    rcases List.pairwise_cons.mp h with ⟨hy, hys⟩
    simp only [sortInsert]
    split
    · rename_i hgt
      refine List.pairwise_cons.mpr ⟨?_, h⟩
      intro z hz
      rcases List.mem_cons.mp hz with rfl | hzm
      · omega
      · have := hy z hzm; omega
    · rename_i hle
      refine List.pairwise_cons.mpr ⟨?_, ih hys⟩
      intro z hz
      rcases (mem_sortInsert r z ys).mp hz with rfl | hzm
      · omega
      · exact hy z hzm

lemma sortInsert_filter (r : RouteRecord) (l : List RouteRecord) (s : Nat)
    (h : l.Pairwise (fun a b => b.score ≤ a.score)) :
    (sortInsert r l).filter (fun x => x.score = s)
      = l.filter (fun x => x.score = s) ++ (if r.score = s then [r] else []) := by
  induction l with
  | nil =>
    simp only [sortInsert, List.filter_nil, List.nil_append, List.filter_cons]
    by_cases hrs : r.score = s
    · simp [hrs]
    · simp [hrs]
  | cons y ys ih =>
    rcases List.pairwise_cons.mp h with ⟨hy, hys⟩
    simp only [sortInsert]
    split
    · rename_i hgt
      by_cases hrs : r.score = s
      · have hnone : (y :: ys).filter (fun x => x.score = s) = [] := by
          refine List.filter_eq_nil_iff.mpr ?_
          intro a ha
          rcases List.mem_cons.mp ha with rfl | ham
          · simp only [decide_eq_true_eq]; omega
          · have := hy a ham; simp only [decide_eq_true_eq]; omega
        simp [List.filter_cons, hrs, hnone]
      · simp [List.filter_cons, hrs]
    · rename_i hle
      simp only [List.filter_cons]
      by_cases hys2 : y.score = s
      · simp [hys2, ih hys]
      · simp [hys2, ih hys]

lemma foldl_sortInsert_inv (defs : List RouteRecord) :
    ∀ acc : List RouteRecord, acc.Pairwise (fun a b => b.score ≤ a.score) →
      (defs.foldl (fun acc r => sortInsert r acc) acc).Pairwise
          (fun a b => b.score ≤ a.score) ∧
      ∀ s : Nat,
        (defs.foldl (fun acc r => sortInsert r acc) acc).filter (fun x => x.score = s)
          = acc.filter (fun x => x.score = s) ++ defs.filter (fun x => x.score = s) := by
  induction defs with
  | nil => intro acc h; simpa using h
  | cons d ds ih =>
    intro acc h
    simp only [List.foldl_cons]
    obtain ⟨hp, hf⟩ := ih (sortInsert d acc) (sortInsert_pairwise d acc h)
    refine ⟨hp, ?_⟩
    intro s
    rw [hf s, sortInsert_filter d acc s h]
    simp only [List.filter_cons]
    by_cases hds : d.score = s
    · simp [hds, List.append_assoc]
    · simp [hds]

/-- C6: the manifest ranking is a stable sort by score descending — in the
output the scores are non-increasing, and for every score value the routes
carrying it appear exactly as they do in the input (same elements, same
relative order), so ties keep declaration order and are never reordered by
path string. -/
theorem manifest_rank_stable_sorted :
    ∀ defs : List RouteRecord,
      (generateRouteManifest defs).Pairwise (fun a b => b.score ≤ a.score) ∧
      ∀ s : Nat,
        (generateRouteManifest defs).filter (fun x => x.score = s)
          = defs.filter (fun x => x.score = s) := by
  intro defs
  obtain ⟨hp, hf⟩ := foldl_sortInsert_inv defs [] (by simp)
  exact ⟨hp, fun s => by simpa using hf s⟩

/-- Counterexample for C7: the claim covers both cited dispatchers, but the
V0 event bus `_dispatchRouteChange` has no per-listener try/catch — with two
subscribers of which the first throws, only listener 0 is invoked, listener 1
is skipped, and the exception propagates out of the dispatch. -/
theorem listener_isolation_counterexample :
    dispatchRouteChange [⟨true⟩, ⟨false⟩] = ([0], true) ∧
    1 ∉ (dispatchRouteChange [⟨true⟩, ⟨false⟩]).1 := by
  decide

lemma notifyFrom_spec (subs : List ListenerB) :
    ∀ i : Nat, notifyFrom subs i = (List.range' i subs.length, false) := by
  induction subs with
  | nil => intro i; simp [notifyFrom, List.range']
  | cons l rest ih =>
    intro i
    simp [notifyFrom, ih (i + 1), List.range']

/-- C7 amended: the runtime dispatcher `notifyListeners` (`src/runtime.ts`)
isolates listener failures — whatever each listener does, every subscriber,
by index, is invoked for the dispatch and no exception escapes (and the
dispatcher performs no write to the current route state).  The V0 event-bus
dispatcher `_dispatchRouteChange` does not isolate (see the
counterexample). -/
theorem listener_isolation_amended :
    ∀ subs : List ListenerB,
      notifyListeners subs = (List.range subs.length, false) := by
  intro subs
  rw [notifyListeners, notifyFrom_spec subs 0, List.range_eq_range']

lemma takeWhile_of_all (f : Char → Bool) (p : Str) (h : ∀ c ∈ p, f c = true) :
    p.takeWhile f = p := by
  induction p with
  | nil => rfl
  | cons c cs ih =>
    have hc := h c (List.mem_cons_self _ _)
    simp only [List.takeWhile_cons, hc]
    rw [ih (fun d hd => h d (List.mem_cons_of_mem _ hd))]
    simp

lemma serializePath_of_safe (p : Str) (h : ∀ c ∈ p, isSafePathChar c = true) :
    serializePath p = p := by
  induction p with
  | nil => rfl
  | cons c cs ih =>
    have hc := h c (List.mem_cons_self _ _)
    simp only [serializePath, List.flatMap_cons, if_pos hc]
    have := ih (fun d hd => h d (List.mem_cons_of_mem _ hd))
    simp only [serializePath] at this
    simp [this]

lemma splitAux_ne_nil (s : Str) : ∀ acc : Str, splitAux s acc ≠ [] := by
  induction s with
  | nil => intro acc; simp [splitAux]
  | cons c cs ih =>
    intro acc
    simp only [splitAux]
    by_cases hc : c = '/'
    · rw [if_pos hc]; simp
    · rw [if_neg hc]; exact ih _

lemma joinSlash_cons_of_ne (x : Str) (L : List Str) (h : L ≠ []) :
    joinSlash (x :: L) = x ++ '/' :: joinSlash L := by
  cases L with
  | nil => exact absurd rfl h
  | cons y ys => rfl

lemma joinSlash_splitAux (s : Str) :
    ∀ acc : Str, joinSlash (splitAux s acc) = acc.reverse ++ s := by
  induction s with
  | nil => intro acc; simp [splitAux, joinSlash]
  | cons c cs ih =>
    intro acc
    simp only [splitAux]
    by_cases hc : c = '/'
    · rw [if_pos hc, joinSlash_cons_of_ne _ _ (splitAux_ne_nil cs []), ih []]
      simp [hc]
    · rw [if_neg hc, ih (c :: acc)]
      simp

lemma joinSlash_splitOnSlash (s : Str) : joinSlash (splitOnSlash s) = s := by
  simpa using joinSlash_splitAux s []

lemma splitAux_chars (s : Str) :
    ∀ (acc piece : Str), piece ∈ splitAux s acc → ∀ c ∈ piece, c ∈ s ∨ c ∈ acc := by
  induction s with
  | nil =>
    intro acc piece hp c hc
    simp only [splitAux, List.mem_singleton] at hp
    subst hp
    exact Or.inr (by simpa using hc)
  | cons d ds ih =>
    intro acc piece hp c hc
    simp only [splitAux] at hp
    by_cases hd : d = '/'
    · rw [if_pos hd] at hp
      rcases List.mem_cons.mp hp with rfl | hp2
      · exact Or.inr (by simpa using hc)
      · rcases ih [] piece hp2 c hc with h1 | h2
        · exact Or.inl (List.mem_cons_of_mem _ h1)
        · simp at h2
    · rw [if_neg hd] at hp
      rcases ih (d :: acc) piece hp c hc with h1 | h2
      · exact Or.inl (List.mem_cons_of_mem _ h1)
      · rcases List.mem_cons.mp h2 with rfl | h3
        · exact Or.inl (List.mem_cons_self _ _)
        · exact Or.inr h3

lemma foldl_removeDot_no_dots (pieces : List Str) :
    ∀ acc : List Str,
      (∀ piece ∈ pieces, piece ≠ strOf "." ∧ piece ≠ strOf "..") →
      pieces.foldl
        (fun acc piece =>
          if piece = strOf ".." then acc.dropLast
          else if piece = strOf "." then acc
          else acc ++ [piece]) acc = acc ++ pieces := by
  induction pieces with
  | nil => intro acc _; simp
  | cons x xs ih =>
    intro acc h
    have hx := h x (List.mem_cons_self _ _)
    simp only [List.foldl_cons, if_neg hx.2, if_neg hx.1]
    rw [ih (acc ++ [x]) (fun p hp => h p (List.mem_cons_of_mem _ hp))]
    simp

lemma normalizePathSegments_of_no_dots (pieces : List Str)
    (h : ∀ piece ∈ pieces, piece ≠ strOf "." ∧ piece ≠ strOf "..") :
    normalizePathSegments pieces = pieces := by
  have hbase : removeDotSegments pieces = pieces := by
    simpa [removeDotSegments] using foldl_removeDot_no_dots pieces [] h
  simp only [normalizePathSegments, hbase]
  cases hl : pieces.getLast? with
  | none => rfl
  | some lastPiece =>
    have hmem : lastPiece ∈ pieces := by
      obtain ⟨hne, heq⟩ := List.mem_getLast?_eq_getLast (Option.mem_def.mpr hl)
      exact heq ▸ List.getLast_mem hne
    dsimp only
    rw [if_neg]
    rintro (h1 | h2)
    · exact (h _ hmem).1 h1
    · exact (h _ hmem).2 h2

lemma map_self_of_pointwise (f : Str → Str) :
    ∀ l : List Str, (∀ x ∈ l, f x = x) → l.map f = l := by
  intro l
  induction l with
  | nil => intro _; rfl
  | cons x xs ih =>
    intro h
    simp only [List.map_cons, h x (List.mem_cons_self _ _),
      ih (fun y hy => h y (List.mem_cons_of_mem _ hy))]

/-- Counterexample for C8: `/a/../b` is a syntactically valid path string
(path-absolute, every character in the URL path character set), but the
browser's URL parser removes dot segments while storing it, so
`push('/a/../b')` followed by `current()` yields `/b`, not the pushed
string. -/
theorem push_current_counterexample :
    (strOf "/a/../b").head? = some '/' ∧
    (strOf "/a/../b").all isSafePathChar = true ∧
    current (push ⟨strOf "/", [], []⟩ (strOf "/a/../b")) = strOf "/b" ∧
    strOf "/b" ≠ strOf "/a/../b" := by
  refine ⟨by decide, by decide, by decide, by decide⟩

/-- C8 amended: pushing a path string that is path-absolute with a single
leading slash, made of characters the URL parser stores verbatim, and free
of `.` and `..` segments, then reading `current()`, returns the path
exactly; dot segments are normalized away by the parser and `//`-prefixed
strings are parsed as protocol-relative, so such strings are excluded. -/
theorem push_current_roundtrip :
    ∀ (loc : Location) (p : Str),
      isValidPathString p = true → current (push loc p) = p := by
  intro loc p h
  simp only [isValidPathString, Bool.and_eq_true, decide_eq_true_eq] at h
  obtain ⟨⟨⟨hhead, hsec⟩, hall⟩, hdots⟩ := h
  have hsafe : ∀ c ∈ p, isSafePathChar c = true := by
    intro c hc
    exact List.all_eq_true.mp hall c hc
  have hdots2 : ∀ piece ∈ splitOnSlash (p.drop 1),
      piece ≠ strOf "." ∧ piece ≠ strOf ".." := by
    intro piece hp
    have := List.all_eq_true.mp hdots piece hp
    simpa [Bool.and_eq_true, decide_eq_true_eq] using this
  simp only [push, pushState, current, if_pos (And.intro hhead hsec)]
  have htake : p.takeWhile (fun c => decide (c ≠ '?' ∧ c ≠ '#')) = p := by
    refine takeWhile_of_all _ p (fun c hc => ?_)
    have := hsafe c hc
    refine decide_eq_true ⟨?_, ?_⟩
    · rintro rfl; exact absurd this (by decide)
    · rintro rfl; exact absurd this (by decide)
  rw [htake, normalizePathSegments_of_no_dots _ hdots2]
  have hser : (splitOnSlash (p.drop 1)).map serializePath = splitOnSlash (p.drop 1) := by
    refine map_self_of_pointwise _ _ (fun piece hp => ?_)
    refine serializePath_of_safe piece (fun c hc => ?_)
    rcases splitAux_chars (p.drop 1) [] piece hp c hc with h1 | h2
    · exact hsafe c (List.mem_of_mem_drop h1)
    · simp at h2
  rw [hser, joinSlash_splitOnSlash]
  cases p with
  | nil => simp at hhead
  | cons c cr =>
    simp only [List.head?_cons, Option.some.injEq] at hhead
    rw [List.drop_succ_cons, List.drop_zero, hhead]

/-- Witness for C8: the round trip on the concrete path `/about`. -/
theorem push_current_roundtrip_witness :
    current (push ⟨strOf "/", [], []⟩ (strOf "/about")) = strOf "/about" :=
  push_current_roundtrip _ _ (by decide)

/-- Counterexample for C10: with the current route at `/p` carrying the query
parsed from `?a=1&b=2`, navigating to `/p?b=2&a=1` targets the same
normalized path with a query that is the same mapping (the pair lists are
permutations of each other, keys unique), yet `navigate` does not return
early: it performs a full `resolveAndRender`, because the
`JSON.stringify` comparison is sensitive to key order. -/
theorem navigate_idempotence_counterexample :
    (parseQueryString (strOf "?b=2&a=1")).Perm (parseQueryString (strOf "?a=1&b=2")) ∧
    (navTarget ⟨strOf "/p", [], parseQueryString (strOf "?a=1&b=2")⟩
        (strOf "/p?b=2&a=1")).1 = strOf "/p" ∧
    navigate ⟨strOf "/p", [], parseQueryString (strOf "?a=1&b=2")⟩
        (strOf "/p?b=2&a=1") false
      = NavAction.resolveAndRender (strOf "/p")
          [(strOf "b", strOf "2"), (strOf "a", strOf "1")] false := by
  refine ⟨by decide, by decide, by decide⟩

/-- C10 amended: `navigate` returns early, with no resolve, render, history
write or listener notification, exactly when the normalized target path
equals the normalized current path and the parsed query equals the current
route's query as an ordered key/value sequence (not merely as a mapping —
see the counterexample); in every other case it proceeds to a full
`resolveAndRender` with the computed path and query. -/
theorem navigate_idempotent_amended :
    ∀ (currentRoute : RouteState) (toArg : Str) (replace : Bool),
      (navigate currentRoute toArg replace = NavAction.idempotentReturn ↔
        ((if (navTarget currentRoute toArg).1.isEmpty then ['/']
            else (navTarget currentRoute toArg).1)
          = (if currentRoute.path.isEmpty then ['/'] else currentRoute.path) ∧
         (navTarget currentRoute toArg).2 = currentRoute.query)) ∧
      (navigate currentRoute toArg replace ≠ NavAction.idempotentReturn →
        navigate currentRoute toArg replace
          = NavAction.resolveAndRender (navTarget currentRoute toArg).1
              (navTarget currentRoute toArg).2 replace) := by
  intro currentRoute toArg replace
  simp only [navigate]
  by_cases hcond :
      (if (navTarget currentRoute toArg).1.isEmpty then ['/']
          else (navTarget currentRoute toArg).1)
        = (if currentRoute.path.isEmpty then ['/'] else currentRoute.path) ∧
      (navTarget currentRoute toArg).2 = currentRoute.query
  · simp [hcond]
  · simp [hcond]

/-- Witness for C10: a target path different from the current one makes
`navigate` proceed to `resolveAndRender`. -/
theorem navigate_idempotent_amended_witness :
    navigate ⟨strOf "/p", [], []⟩ (strOf "/q") false
      = NavAction.resolveAndRender (navTarget ⟨strOf "/p", [], []⟩ (strOf "/q")).1
          (navTarget ⟨strOf "/p", [], []⟩ (strOf "/q")).2 false :=
  (navigate_idempotent_amended ⟨strOf "/p", [], []⟩ (strOf "/q") false).2 (by decide)

/-- Mount events of the generated router. -/
def isTMount : TEv → Bool
  | TEv.mount _ => true
  | _ => false

/-- Teardown events of the generated router. -/
def isTTeardown : TEv → Bool
  | TEv.teardown => true
  | _ => false

/-- Mount events of the V0 router. -/
def isV0Mount : V0Ev → Bool
  | V0Ev.mount _ => true
  | _ => false

/-- Counterexample for C1: the claim covers the cited `_resolve` of the V0
router, which has no navigation token — after its load suspension it mounts
and dispatches unconditionally.  Issuing `/a` then `/b` before the `/a` load
resolves, with the `/a` load resolving last, produces two mounts and two
teardown calls, and the superseded `/a` navigation mounts and notifies after
`/b` did, leaving the stale page mounted. -/
theorem token_discard_counterexample :
    v0OverlapRun.log
      = [V0Ev.cleanup, V0Ev.cleanup, V0Ev.mount (strOf "/b"),
         V0Ev.routeChange (strOf "/b") true, V0Ev.mount (strOf "/a"),
         V0Ev.routeChange (strOf "/a") true] ∧
    (v0OverlapRun.log.filter isV0Mount).length = 2 := by
  refine ⟨by decide, by decide⟩

lemma navigateStartT_success (chunks : List (Str × Str)) (p : Str) (pe : Bool)
    (s : TState) (r : Str × List (Str × Str))
    (h : resolveRouteT chunks p = some r) :
    navigateStartT chunks p pe s =
      ({ navigationToken := s.navigationToken + 1
        , activeCleanup := false
        , log := (if pe then s.log ++ [TEv.historyPush p] else s.log)
            ++ (if s.activeCleanup then [TEv.teardown] else []) },
        some ⟨r.1, s.navigationToken + 1⟩) := by
  simp only [navigateStartT, h, mountRouteSync, teardownRuntime]
  cases hc : s.activeCleanup <;> simp [hc]

/-- C1 amended: in the generated router (template.js), whose `mountRoute`
re-checks its token at every continuation point, overlapping navigations A
then B (B issued before A's import resolves) perform exactly one mount — for
B — exactly one teardown when a page was mounted initially and none
otherwise, and only the history entries pushed synchronously at issue time,
whichever order the two imports resolve in; a continuation holding a
superseded token is a no-op.  The V0 `_resolve` has no such token re-check
and violates the claim (see the counterexample). -/
theorem token_discard_amended :
    ∀ (chunks : List (Str × Str)) (pa pb : Str) (pushA pushB aResolvesFirst : Bool)
      (s0 : TState) (ra rb : Str × List (Str × Str)),
      resolveRouteT chunks pa = some ra →
      resolveRouteT chunks pb = some rb →
      (overlapRun chunks pa pb pushA pushB aResolvesFirst s0).log
        = s0.log ++ ((if pushA then [TEv.historyPush pa] else [])
            ++ ((if s0.activeCleanup then [TEv.teardown] else [])
            ++ ((if pushB then [TEv.historyPush pb] else [])
            ++ [TEv.mount rb.1]))) ∧
      ((overlapRun chunks pa pb pushA pushB aResolvesFirst s0).log.drop
          s0.log.length).filter isTMount = [TEv.mount rb.1] ∧
      (((overlapRun chunks pa pb pushA pushB aResolvesFirst s0).log.drop
          s0.log.length).filter isTTeardown).length
        = (if s0.activeCleanup then 1 else 0) ∧
      (∀ (s : TState) (t : Nat), t ≠ s.navigationToken →
        mountRouteFinish ra.1 t s = s) := by
  intro chunks pa pb pushA pushB ord s0 ra rb ha hb
  have hne : s0.navigationToken + 1 ≠ s0.navigationToken + 2 := by omega
  have key : overlapRun chunks pa pb pushA pushB ord s0 =
      { navigationToken := s0.navigationToken + 2
      , activeCleanup := true
      , log := s0.log ++ ((if pushA then [TEv.historyPush pa] else [])
          ++ ((if s0.activeCleanup then [TEv.teardown] else [])
          ++ ((if pushB then [TEv.historyPush pb] else [])
          ++ [TEv.mount rb.1]))) } := by
    simp only [overlapRun, navigateStartT_success chunks pa pushA s0 ra ha]
    rw [navigateStartT_success chunks pb pushB _ rb hb]
    simp only [mountRouteFinish]
    cases ord <;>
      cases hA : pushA <;> cases hB : pushB <;> cases hC : s0.activeCleanup <;>
        simp [hne, List.append_assoc]
  refine ⟨by rw [key], ?_, ?_, ?_⟩
  · rw [key]
    simp only [List.drop_left]
    cases hA : pushA <;> cases hB : pushB <;> cases hC : s0.activeCleanup <;>
      simp [isTMount]
  · rw [key]
    simp only [List.drop_left]
    cases hA : pushA <;> cases hB : pushB <;> cases hC : s0.activeCleanup <;>
      simp [isTTeardown]
  · intro s t ht
    simp [mountRouteFinish, ht]

/-- Witness for C1: the concrete overlapping `/a` then `/b` scenario on a
two-route chunk map, starting from a mounted page. -/
theorem token_discard_amended_witness :
    (overlapRun [(strOf "/a", strOf "ca"), (strOf "/b", strOf "cb")]
        (strOf "/a") (strOf "/b") false false true ⟨0, true, []⟩).log
      = [TEv.teardown, TEv.mount (strOf "/b")] := by
  have h := token_discard_amended [(strOf "/a", strOf "ca"), (strOf "/b", strOf "cb")]
      (strOf "/a") (strOf "/b") false false true ⟨0, true, []⟩
      (strOf "/a", []) (strOf "/b", []) (by decide) (by decide)
  simpa using h.1

/-- Counterexample for C2: for the route `/*files` (a catch-all, one of the
segment shapes of the spec) and the pathname `/a`, the structural matcher
reports no match — the V0 walk treats `*files` as a literal — while the
compiled regex matcher matches and extracts `files = a`.  The two strategies
are not equivalent over all the segment shapes. -/
theorem dual_matcher_counterexample :
    matchOutcome (matchPath (strOf "/*files") (strOf "/a")) = none ∧
    regexMatchRoute (generateRouteDefinition (strOf "/*files")) (strOf "/a")
      = JsResult.ok (some [(strOf "files", strOf "a")]) := by
  refine ⟨by decide, by decide⟩

/-- Route segment shapes of the amended dual-matcher equivalence: static
literals and dynamic parameters (the shapes the structural V0 matcher
actually supports). -/
inductive SDSeg
  | staticSeg (lit : Str)
  | dynSeg (name : Str)
deriving Repr, DecidableEq

/-- Raw route-path token of a segment shape. -/
def sdRaw : SDSeg → Str
  | SDSeg.staticSeg lit => lit
  | SDSeg.dynSeg name => ':' :: name

/-- Dynamic parameter names of a shape list, in order. -/
def sdNames (segs : List SDSeg) : List Str :=
  segs.filterMap (fun s =>
    match s with
    | SDSeg.dynSeg n => some n
    | _ => none)

/-- Regex piece of a segment shape. -/
def partOfSD : SDSeg → RegexPart
  | SDSeg.staticSeg lit => RegexPart.lit lit
  | SDSeg.dynSeg _ => RegexPart.dynamic

/-- Well-formed static literal: non-empty, slash-free, and not starting with
a parameter or catch-all marker. -/
def goodStatic (lit : Str) : Bool :=
  !lit.isEmpty && !lit.contains '/' && !(lit.head? = some ':') && !(lit.head? = some '*')

/-- Well-formedness of one segment shape. -/
def goodSDSeg : SDSeg → Bool
  | SDSeg.staticSeg lit => goodStatic lit
  | SDSeg.dynSeg n => isValidParamName n

/-- Canonical pathname segment: non-empty, slash-free and percent-free. -/
def goodPathSeg (s : Str) : Bool :=
  !s.isEmpty && !s.contains '/' && !s.contains '%'

/-- Canonical suffix `/s1/s2...` of a pathname segment list. -/
def canonSuffix : List Str → Str
  | [] => []
  | s :: rest => '/' :: (s ++ canonSuffix rest)

/-- Canonical path of a segment list (`/` for the empty list). -/
def canonPath (segs : List Str) : Str :=
  if segs = [] then ['/'] else canonSuffix segs

/-- Route path built from segment shapes. -/
def routePathOf (segs : List SDSeg) : Str := canonPath (segs.map sdRaw)

/-- Reference segment walk of the equivalence proof: segments paired
one-to-one, static literals compared, dynamic values captured in order. -/
def refWalk : List SDSeg → List Str → Option (List (Str × Str))
  | [], [] => some []
  | SDSeg.staticSeg lit :: rs, p :: ps =>
    if lit = p then refWalk rs ps else none
  | SDSeg.dynSeg n :: rs, p :: ps =>
    (refWalk rs ps).map (fun params => (n, p) :: params)
  | _, _ => none

lemma splitAux_append_noslash (s : Str) :
    ∀ (cs acc : Str), '/' ∉ s → splitAux (s ++ cs) acc = splitAux cs (s.reverse ++ acc) := by
  induction s with
  | nil => intro cs acc _; simp
  | cons c cr ih =>
    intro cs acc hns
    have hc : c ≠ '/' := fun h => hns (h ▸ List.mem_cons_self c cr)
    simp only [List.cons_append, splitAux, if_neg hc, List.append_eq]
    rw [ih cs (c :: acc) (fun h => hns (List.mem_cons_of_mem _ h))]
    simp [List.append_assoc]

lemma splitAux_canon (segs : List Str) :
    ∀ pre : Str, (∀ s ∈ segs, '/' ∉ s) →
      splitAux (canonSuffix segs) pre.reverse = pre :: segs := by
  induction segs with
  | nil => intro pre _; simp [canonSuffix, splitAux]
  | cons s rest ih =>
    intro pre hns
    simp only [canonSuffix]
    rw [show splitAux ('/' :: (s ++ canonSuffix rest)) pre.reverse
        = pre.reverse.reverse :: splitAux (s ++ canonSuffix rest) [] from by
      simp [splitAux]]
    rw [List.reverse_reverse]
    rw [splitAux_append_noslash s _ [] (hns s (List.mem_cons_self _ _))]
    rw [show s.reverse ++ ([] : Str) = s.reverse from by simp]
    rw [ih s (fun x hx => hns x (List.mem_cons_of_mem _ hx))]

lemma splitPath_canonSuffix (segs : List Str)
    (h : ∀ s ∈ segs, s ≠ [] ∧ '/' ∉ s) :
    splitPath (canonSuffix segs) = segs := by
  cases segs with
  | nil => rfl
  | cons s rest =>
    have hsp := splitAux_canon (s :: rest) [] (fun x hx => (h x hx).2)
    simp only [List.reverse_nil] at hsp
    simp only [splitPath, splitOnSlash, hsp]
    have hall : ∀ x ∈ s :: rest, (!x.isEmpty) = true := by
      intro x hx
      simp only [Bool.not_eq_true', List.isEmpty_eq_false_iff_exists_mem]
      rcases x with _ | ⟨y, ys⟩
      · exact absurd rfl (h _ hx).1
      · exact ⟨y, List.mem_cons_self _ _⟩
    have hdrop : List.filter (fun x => !x.isEmpty) (([] : Str) :: s :: rest)
        = List.filter (fun x => !x.isEmpty) (s :: rest) := by simp
    rw [hdrop, List.filter_eq_self.mpr hall]

lemma splitOnSlash_canonSuffix_drop (s : Str) (rest : List Str)
    (h : ∀ x ∈ s :: rest, '/' ∉ x) :
    splitOnSlash ((canonSuffix (s :: rest)).drop 1) = s :: rest := by
  simp only [canonSuffix, List.drop_succ_cons, List.drop_zero]
  rw [splitOnSlash, splitAux_append_noslash s _ [] (h s (List.mem_cons_self _ _))]
  rw [show s.reverse ++ ([] : Str) = s.reverse from by simp]
  exact splitAux_canon rest s (fun x hx => h x (List.mem_cons_of_mem _ hx))

lemma canonSuffix_ne_root (p : Str) (ps : List Str) (hp : p ≠ []) :
    canonSuffix (p :: ps) ≠ ['/'] := by
  simp only [canonSuffix]
  intro h
  have h2 : p ++ canonSuffix ps = [] := (List.cons.inj h).2
  exact hp (List.append_eq_nil.mp h2).1

lemma findSome?_none {α β : Type} (f : α → Option β) :
    ∀ l : List α, (∀ x ∈ l, f x = none) → l.findSome? f = none := by
  intro l
  induction l with
  | nil => intro _; rfl
  | cons a as ih =>
    intro h
    rw [List.findSome?_cons]
    rw [h a (List.mem_cons_self _ _)]
    exact ih (fun x hx => h x (List.mem_cons_of_mem _ hx))

lemma findSome?_eq_of_unique {α β : Type} (f : α → Option β) :
    ∀ (l : List α) (x : α), x ∈ l → (∀ y ∈ l, y ≠ x → f y = none) →
      l.findSome? f = f x := by
  intro l
  induction l with
  | nil => intro x hx; simp at hx
  | cons a as ih =>
    intro x hx hothers
    rw [List.findSome?_cons]
    by_cases hax : a = x
    · subst hax
      cases hfa : f a with
      | some b => rfl
      | none =>
        have hall : ∀ y ∈ as, f y = none := by
          intro y hy
          by_cases hya : y = a
          · rw [hya, hfa]
          · exact hothers y (List.mem_cons_of_mem _ hy) hya
        exact findSome?_none f as hall
    · rw [hothers a (List.mem_cons_self _ _) hax]
      have hxas : x ∈ as := by
        rcases List.mem_cons.mp hx with h1 | h2
        · exact absurd h1.symm hax
        · exact h2
      exact ih x hxas (fun y hy hyx => hothers y (List.mem_cons_of_mem _ hy) hyx)

lemma mem_prefixSplits (cs : Str) :
    ∀ vr : Str × Str, vr ∈ prefixSplits cs ↔ vr.1 ++ vr.2 = cs := by
  induction cs with
  | nil =>
    intro vr
    simp only [prefixSplits, List.mem_singleton]
    constructor
    · rintro rfl; rfl
    · intro h
      rcases List.append_eq_nil.mp h with ⟨h1, h2⟩
      cases vr
      simp_all
  | cons c cs ih =>
    intro vr
    simp only [prefixSplits, List.mem_append, List.mem_map, List.mem_singleton]
    constructor
    · intro h
      rcases h with ⟨wr, hwr, rfl⟩ | rfl
      · simp only []
        rw [show (c :: wr.1, wr.2).1 ++ (c :: wr.1, wr.2).2 = c :: (wr.1 ++ wr.2) from rfl]
        rw [(ih wr).mp hwr]
      · rfl
    · intro h
      rcases vr with ⟨v, r⟩
      cases v with
      | nil => exact Or.inr (by simpa using h.symm ▸ rfl)
      | cons x xt =>
        simp only [List.cons_append, List.cons.injEq] at h
        obtain ⟨rfl, h2⟩ := h
        exact Or.inl ⟨(xt, r), (ih (xt, r)).mpr h2, rfl⟩

lemma execParts_stuck (parts : List RegexPart) :
    ∀ (c : Char) (cr : Str), c ≠ '/' → execParts parts (c :: cr) = none := by
  induction parts with
  | nil =>
    intro c cr hc
    simp only [execParts]
    rw [if_neg]
    push_neg
    refine ⟨by simp, ?_⟩
    intro h
    exact hc (List.cons.inj h).1
  | cons part rest ih =>
    intro c cr hc
    cases part with
    | lit s =>
      simp only [execParts]
      rw [if_neg]
      intro h
      have : c = '/' := by
        have := congrArg List.head? h
        simpa [List.take_succ_cons] using this
      exact hc this
    | dynamic =>
      simp only [execParts]
      split
      · rename_i tail heq
        exact absurd (List.cons.inj heq).1 hc
      · rfl
    | catchAll =>
      simp only [execParts]
      split
      · rename_i tail heq
        exact absurd (List.cons.inj heq).1 hc
      · rfl
    | optCatchAll =>
      simp only [execParts]
      split
      · rename_i gs heq
        exfalso
        split at heq
        · rename_i tail heq2
          exact absurd (List.cons.inj heq2).1 hc
        · exact Option.noConfusion heq
      · rw [ih c cr hc]
        rfl

lemma take_append_lit (lit : Str) :
    ∀ (p suffix : Str), '/' ∉ lit → '/' ∉ p →
      (suffix = [] ∨ suffix.head? = some '/') →
      (p ++ suffix).take lit.length = lit →
      lit = p ∨ (∃ d, d ≠ [] ∧ p = lit ++ d) := by
  induction lit with
  | nil =>
    intro p suffix _ _ _ _
    cases p with
    | nil => exact Or.inl rfl
    | cons a pt => exact Or.inr ⟨a :: pt, by simp, by simp⟩
  | cons c lt ih =>
    intro p suffix hlit hp hs h
    cases p with
    | nil =>
      exfalso
      simp only [List.nil_append] at h
      rcases hs with rfl | hhd
      · simp at h
      · cases suffix with
        | nil => simp at h
        | cons x xs =>
          simp only [List.head?_cons, Option.some.injEq] at hhd
          simp only [List.length_cons, List.take_succ_cons, List.cons.injEq] at h
          exact hlit (h.1 ▸ hhd ▸ List.mem_cons_self _ _)
    | cons a pt =>
      simp only [List.cons_append, List.length_cons, List.take_succ_cons,
        List.cons.injEq] at h
      obtain ⟨rfl, h2⟩ := h
      have hlt : '/' ∉ lt := fun hm => hlit (List.mem_cons_of_mem _ hm)
      have hpt : '/' ∉ pt := fun hm => hp (List.mem_cons_of_mem _ hm)
      rcases ih pt suffix hlt hpt hs h2 with h3 | ⟨d, hdne, hpd⟩
      · exact Or.inl (by rw [h3])
      · exact Or.inr ⟨d, hdne, by rw [hpd]; rfl⟩

lemma split_of_append_eq (v : Str) :
    ∀ (r p suffix : Str), '/' ∉ v → '/' ∉ p →
      (suffix = [] ∨ suffix.head? = some '/') →
      v ++ r = p ++ suffix → v ≠ p →
      ∃ d, d ≠ [] ∧ p = v ++ d ∧ r = d ++ suffix := by
  induction v with
  | nil =>
    intro r p suffix _ _ _ heq hne
    cases p with
    | nil => exact absurd rfl hne
    | cons a pt =>
      exact ⟨a :: pt, by simp, by simp, by simpa using heq⟩
  | cons c vt ih =>
    intro r p suffix hv hp hs heq hne
    cases p with
    | nil =>
      exfalso
      simp only [List.nil_append] at heq
      rcases hs with rfl | hhd
      · exact absurd heq (by simp)
      · rw [← heq] at hhd
        simp only [List.cons_append, List.head?_cons, Option.some.injEq] at hhd
        exact hv (hhd ▸ List.mem_cons_self _ _)
    | cons a pt =>
      simp only [List.cons_append, List.cons.injEq] at heq
      obtain ⟨rfl, heq2⟩ := heq
      have hvt : '/' ∉ vt := fun hm => hv (List.mem_cons_of_mem _ hm)
      have hpt : '/' ∉ pt := fun hm => hp (List.mem_cons_of_mem _ hm)
      have hne2 : vt ≠ pt := fun h => hne (by rw [h])
      obtain ⟨d, hdne, hpd, hrd⟩ := ih r pt suffix hvt hpt hs heq2 hne2
      exact ⟨d, hdne, by rw [hpd]; rfl, hrd⟩

lemma contains_false_of_not_mem (p : Str) (c : Char) (h : c ∉ p) :
    p.contains c = false := by simpa using h

lemma execParts_dyn_step (restParts : List RegexPart) (p suffix : Str)
    (hp : p ≠ []) (hpf : '/' ∉ p) (hs : suffix = [] ∨ suffix.head? = some '/') :
    execParts (RegexPart.dynamic :: restParts) ('/' :: (p ++ suffix))
      = (execParts restParts suffix).map (fun gs => some p :: gs) := by
  simp only [execParts]
  have hmem : (p, suffix) ∈ (prefixSplits (p ++ suffix)).filter
      (fun vr => !vr.1.isEmpty && !vr.1.contains '/') := by
    rw [List.mem_filter]
    refine ⟨(mem_prefixSplits _ _).mpr rfl, ?_⟩
    simp only [Bool.and_eq_true, Bool.not_eq_true']
    constructor
    · cases p with
      | nil => exact absurd rfl hp
      | cons a b => rfl
    · exact contains_false_of_not_mem p '/' hpf
  have hothers : ∀ y ∈ (prefixSplits (p ++ suffix)).filter
      (fun vr => !vr.1.isEmpty && !vr.1.contains '/'),
      y ≠ (p, suffix) →
      (execParts restParts y.2).map (fun gs => some y.1 :: gs) = none := by
    intro y hy hyne
    rcases List.mem_filter.mp hy with ⟨hysplit, hycond⟩
    have hyeq : y.1 ++ y.2 = p ++ suffix := (mem_prefixSplits _ _).mp hysplit
    simp only [Bool.and_eq_true, Bool.not_eq_true'] at hycond
    have hyne1 : y.1 ≠ [] := by
      intro h0
      rw [h0] at hycond
      simp at hycond
    have hynoslash : '/' ∉ y.1 := by
      intro hm
      have := hycond.2
      rw [show (y.1.contains '/') = true by simpa using hm] at this
      exact Bool.noConfusion this
    have hy1nep : y.1 ≠ p := by
      intro h1
      apply hyne
      have h2 : y.2 = suffix := by
        have h3 := hyeq
        rw [h1] at h3
        exact List.append_cancel_left h3
      cases y
      simp_all
    obtain ⟨d, hdne, hpd, hrd⟩ :=
      split_of_append_eq y.1 y.2 p suffix hynoslash hpf hs hyeq hy1nep
    cases d with
    | nil => exact absurd rfl hdne
    | cons e et =>
      have hel : e ∈ p := by rw [hpd]; exact List.mem_append_right _ (List.mem_cons_self _ _)
      have hene : e ≠ '/' := fun h => hpf (h ▸ hel)
      rw [hrd]
      rw [show (e :: et) ++ suffix = e :: (et ++ suffix) from rfl]
      rw [execParts_stuck restParts e (et ++ suffix) hene]
      rfl
  rw [findSome?_eq_of_unique _ _ (p, suffix) hmem hothers]

lemma goodStatic_props (lit : Str) (h : goodStatic lit = true) :
    lit ≠ [] ∧ '/' ∉ lit ∧ lit.head? ≠ some ':' ∧ lit.head? ≠ some '*' := by
  simp only [goodStatic, Bool.and_eq_true, Bool.not_eq_true'] at h
  obtain ⟨⟨⟨h1, h2⟩, h3⟩, h4⟩ := h
  refine ⟨?_, ?_, ?_, ?_⟩
  · intro hz; rw [hz] at h1; simp at h1
  · intro hm; rw [show lit.contains '/' = true by simpa using hm] at h2; exact Bool.noConfusion h2
  · simpa using h3
  · simpa using h4

lemma goodPathSeg_props (s : Str) (h : goodPathSeg s = true) :
    s ≠ [] ∧ '/' ∉ s ∧ '%' ∉ s := by
  simp only [goodPathSeg, Bool.and_eq_true, Bool.not_eq_true'] at h
  obtain ⟨⟨h1, h2⟩, h3⟩ := h
  refine ⟨?_, ?_, ?_⟩
  · intro hz; rw [hz] at h1; simp at h1
  · intro hm; rw [show s.contains '/' = true by simpa using hm] at h2; exact Bool.noConfusion h2
  · intro hm; rw [show s.contains '%' = true by simpa using hm] at h3; exact Bool.noConfusion h3

lemma canonSuffix_shape (ps : List Str) :
    canonSuffix ps = [] ∨ (canonSuffix ps).head? = some '/' := by
  cases ps with
  | nil => exact Or.inl rfl
  | cons q qs => exact Or.inr rfl

lemma execParts_refWalk (rsegs : List SDSeg) :
    ∀ psegs : List Str,
      (∀ s ∈ rsegs, goodSDSeg s = true) →
      (∀ x ∈ psegs, goodPathSeg x = true) →
      execParts (rsegs.map partOfSD) (canonSuffix psegs)
        = (refWalk rsegs psegs).map (fun params => params.map (fun kv => some kv.2)) := by
  induction rsegs with
  | nil =>
    intro psegs _ hp
    cases psegs with
    | nil => simp [execParts, canonSuffix, refWalk]
    | cons p ps =>
      have hpne := (goodPathSeg_props p (hp p (List.mem_cons_self _ _))).1
      simp only [List.map_nil, execParts, canonSuffix]
      rw [if_neg]
      · rfl
      · push_neg
        refine ⟨by simp, ?_⟩
        intro h
        exact hpne (List.append_eq_nil.mp (List.cons.inj h).2).1
  | cons rseg rest ih =>
    intro psegs hr hp
    have hrrest : ∀ s ∈ rest, goodSDSeg s = true :=
      fun s hs => hr s (List.mem_cons_of_mem _ hs)
    have hrhead := hr rseg (List.mem_cons_self _ _)
    cases psegs with
    | nil =>
      cases rseg with
      | staticSeg lit =>
        simp only [List.map_cons, partOfSD, execParts, canonSuffix]
        rw [if_neg]
        · rfl
        · simp
      | dynSeg n =>
        simp only [List.map_cons, partOfSD, execParts, canonSuffix]
        rfl
    | cons p ps =>
      have hpprops := goodPathSeg_props p (hp p (List.mem_cons_self _ _))
      have hprest : ∀ x ∈ ps, goodPathSeg x = true :=
        fun x hx => hp x (List.mem_cons_of_mem _ hx)
      cases rseg with
      | dynSeg n =>
        simp only [List.map_cons, partOfSD, canonSuffix]
        rw [execParts_dyn_step _ p (canonSuffix ps) hpprops.1 hpprops.2.1
          (canonSuffix_shape ps)]
        rw [ih ps hrrest hprest]
        simp only [refWalk]
        cases refWalk rest ps <;> simp
      | staticSeg lit =>
        have hlitprops := goodStatic_props lit (by simpa [goodSDSeg] using hrhead)
        simp only [List.map_cons, partOfSD, execParts, canonSuffix]
        by_cases hlp : lit = p
        · subst hlp
          rw [if_pos (by rw [List.take_succ_cons, List.take_left])]
          rw [show ('/' :: (lit ++ canonSuffix ps)).drop (lit.length + 1)
              = canonSuffix ps from by rw [List.drop_succ_cons, List.drop_left]]
          rw [ih ps hrrest hprest]
          simp [refWalk]
        · by_cases hcond : (p ++ canonSuffix ps).take lit.length = lit
          · rcases take_append_lit lit p (canonSuffix ps) hlitprops.2.1 hpprops.2.1
                (canonSuffix_shape ps) hcond with h1 | ⟨d, hdne, hpd⟩
            · exact absurd h1 hlp
            · rw [if_pos (by rw [List.take_succ_cons, hcond])]
              have hdrop : ('/' :: (p ++ canonSuffix ps)).drop (lit.length + 1)
                  = d ++ canonSuffix ps := by
                rw [List.drop_succ_cons, hpd, List.append_assoc, List.drop_left]
              rw [hdrop]
              cases d with
              | nil => exact absurd rfl hdne
              | cons e et =>
                have hel : e ∈ p := by
                  rw [hpd]; exact List.mem_append_right _ (List.mem_cons_self _ _)
                have hene : e ≠ '/' := fun h => hpprops.2.1 (h ▸ hel)
                rw [show (e :: et) ++ canonSuffix ps = e :: (et ++ canonSuffix ps) from rfl]
                rw [execParts_stuck (List.map partOfSD rest) e (et ++ canonSuffix ps) hene]
                simp [refWalk, hlp]
          · rw [if_neg (by
              intro h
              rw [List.take_succ_cons] at h
              exact hcond (List.cons.inj h).2)]
            simp [refWalk, hlp]

lemma validName_ne_nil (n : Str) (h : isValidParamName n = true) : n ≠ [] := by
  intro hz
  rw [hz] at h
  simp [isValidParamName] at h

lemma validName_no_slash (n : Str) (h : isValidParamName n = true) : '/' ∉ n := by
  cases n with
  | nil => simp [isValidParamName] at h
  | cons c cs =>
    simp only [isValidParamName, Bool.and_eq_true] at h
    intro hm
    rcases List.mem_cons.mp hm with h1 | h2
    · rw [← h1] at h
      exact absurd h.1 (by decide)
    · have := List.all_eq_true.mp h.2 '/' h2
      exact absurd this (by decide)

lemma sdRaw_good (s : SDSeg) (h : goodSDSeg s = true) :
    sdRaw s ≠ [] ∧ '/' ∉ sdRaw s := by
  cases s with
  | staticSeg lit =>
    have hx := goodStatic_props lit (by simpa [goodSDSeg] using h)
    exact ⟨hx.1, hx.2.1⟩
  | dynSeg n =>
    have hv : isValidParamName n = true := by simpa [goodSDSeg] using h
    refine ⟨by simp [sdRaw], ?_⟩
    simp only [sdRaw]
    intro hm
    rcases List.mem_cons.mp hm with h1 | h2
    · exact absurd h1 (by decide)
    · exact validName_no_slash n hv h2

lemma sdNames_static (lit : Str) (rest : List SDSeg) :
    sdNames (SDSeg.staticSeg lit :: rest) = sdNames rest := by
  simp [sdNames, List.filterMap_cons]

lemma sdNames_dyn (n : Str) (rest : List SDSeg) :
    sdNames (SDSeg.dynSeg n :: rest) = n :: sdNames rest := by
  simp [sdNames, List.filterMap_cons]

lemma sdNames_valid (rsegs : List SDSeg) (h : ∀ s ∈ rsegs, goodSDSeg s = true) :
    ∀ n ∈ sdNames rsegs, isValidParamName n = true := by
  induction rsegs with
  | nil => intro n hn; simp [sdNames] at hn
  | cons s rest ih =>
    intro n hn
    have hrest := fun x hx => h x (List.mem_cons_of_mem _ hx)
    cases s with
    | staticSeg lit =>
      rw [sdNames_static] at hn
      exact ih hrest n hn
    | dynSeg m =>
      rw [sdNames_dyn] at hn
      rcases List.mem_cons.mp hn with rfl | hn2
      · simpa [goodSDSeg] using h (SDSeg.dynSeg n) (List.mem_cons_self _ _)
      · exact ih hrest n hn2

lemma refWalk_none_of_length (rsegs : List SDSeg) :
    ∀ psegs : List Str, rsegs.length ≠ psegs.length → refWalk rsegs psegs = none := by
  induction rsegs with
  | nil =>
    intro psegs hlen
    cases psegs with
    | nil => exact absurd rfl hlen
    | cons p ps => rfl
  | cons s rest ih =>
    intro psegs hlen
    cases psegs with
    | nil => cases s <;> rfl
    | cons p ps =>
      have hlen2 : rest.length ≠ ps.length := by
        intro h; exact hlen (by simp [h])
      cases s with
      | staticSeg lit =>
        simp only [refWalk]
        rw [ih ps hlen2]
        split <;> rfl
      | dynSeg n =>
        simp only [refWalk]
        rw [ih ps hlen2]
        rfl

lemma refWalk_facts (rsegs : List SDSeg) :
    ∀ (psegs : List Str) (params : List (Str × Str)),
      refWalk rsegs psegs = some params →
      params.map Prod.fst = sdNames rsegs ∧ ∀ kv ∈ params, kv.2 ∈ psegs := by
  induction rsegs with
  | nil =>
    intro psegs params h
    cases psegs with
    | nil =>
      simp only [refWalk, Option.some.injEq] at h
      subst h
      simp [sdNames]
    | cons p ps => simp [refWalk] at h
  | cons rseg rest ih =>
    intro psegs params h
    cases psegs with
    | nil => cases rseg <;> simp [refWalk] at h
    | cons p ps =>
      cases rseg with
      | staticSeg lit =>
        simp only [refWalk] at h
        split at h
        · obtain ⟨h1, h2⟩ := ih ps params h
          rw [sdNames_static]
          exact ⟨h1, fun kv hkv => List.mem_cons_of_mem _ (h2 kv hkv)⟩
        · exact Option.noConfusion h
      | dynSeg n =>
        simp only [refWalk] at h
        cases hw : refWalk rest ps with
        | none => rw [hw] at h; exact Option.noConfusion h
        | some ps2 =>
          rw [hw] at h
          simp only [Option.map_some', Option.some.injEq] at h
          subst h
          obtain ⟨h1, h2⟩ := ih ps ps2 hw
          rw [sdNames_dyn]
          constructor
          · simp [h1]
          · intro kv hkv
            rcases List.mem_cons.mp hkv with rfl | hkvm
            · exact List.mem_cons_self _ _
            · exact List.mem_cons_of_mem _ (h2 kv hkvm)

lemma matchSegs_refWalk (rsegs : List SDSeg) :
    ∀ (psegs seen : List Str) (acc : List (Str × Str)),
      (∀ s ∈ rsegs, goodSDSeg s = true) →
      (sdNames rsegs).Nodup →
      (∀ n ∈ sdNames rsegs, n ∉ seen) →
      rsegs.length = psegs.length →
      matchOutcome (matchSegs (rsegs.map sdRaw) psegs seen acc)
        = (refWalk rsegs psegs).map (fun params => acc ++ params) := by
  induction rsegs with
  | nil =>
    intro psegs seen acc _ _ _ hlen
    cases psegs with
    | nil => simp [matchSegs, matchOutcome, refWalk]
    | cons p ps => simp at hlen
  | cons rseg rest ih =>
    intro psegs seen acc hgood hnd hseen hlen
    have hgrest : ∀ s ∈ rest, goodSDSeg s = true :=
      fun s hs => hgood s (List.mem_cons_of_mem _ hs)
    cases psegs with
    | nil => simp at hlen
    | cons p ps =>
      have hlen2 : rest.length = ps.length := by simpa using hlen
      cases rseg with
      | staticSeg lit =>
        have hprops := goodStatic_props lit
          (by simpa [goodSDSeg] using hgood _ (List.mem_cons_self _ _))
        rw [sdNames_static] at hnd hseen
        simp only [List.map_cons, sdRaw, matchSegs]
        rw [if_neg hprops.2.2.1]
        by_cases hlp : lit = p
        · rw [if_pos hlp]
          rw [ih ps seen acc hgrest hnd hseen hlen2]
          simp only [refWalk, if_pos hlp]
        · rw [if_neg hlp]
          simp only [refWalk, if_neg hlp, matchOutcome]
          rfl
      | dynSeg n =>
        have hv : isValidParamName n = true := by
          simpa [goodSDSeg] using hgood _ (List.mem_cons_self _ _)
        rw [sdNames_dyn] at hnd hseen
        have hnin : n ∉ seen := hseen n (List.mem_cons_self _ _)
        simp only [List.map_cons, sdRaw, matchSegs, List.head?_cons, List.tail_cons,
          Option.some.injEq, if_true]
        rw [if_pos hv, if_neg hnin]
        have hnd2 : (sdNames rest).Nodup := (List.nodup_cons.mp hnd).2
        have hnmem : n ∉ sdNames rest := (List.nodup_cons.mp hnd).1
        have hseen2 : ∀ m ∈ sdNames rest, m ∉ n :: seen := by
          intro m hm
          intro hmem
          rcases List.mem_cons.mp hmem with rfl | h2
          · exact hnmem hm
          · exact hseen m (List.mem_cons_of_mem _ hm) h2
        rw [ih ps (n :: seen) (acc ++ [(n, p)]) hgrest hnd2 hseen2 hlen2]
        simp only [refWalk]
        cases refWalk rest ps <;> simp

lemma decode_no_percent (v : Str) (h : '%' ∉ v) : decodeURIComponentOpt v = some v := by
  induction v with
  | nil => rfl
  | cons c cs ih =>
    have hc : c ≠ '%' := fun hz => h (hz ▸ List.mem_cons_self _ _)
    have hstep : decodeURIComponentOpt (c :: cs)
        = (decodeURIComponentOpt cs).map (fun ds => c :: ds) := by
      unfold decodeURIComponentOpt
      rw [if_neg hc]
      rw [← decodeURIComponentOpt.eq_def]
    rw [hstep, ih (fun hm => h (List.mem_cons_of_mem _ hm))]
    rfl

lemma objSet_fresh (obj : List (Str × Str)) (key v : Str)
    (h : ∀ a ∈ obj, a.1 ≠ key) : objSet obj key v = obj ++ [(key, v)] := by
  simp only [objSet]
  rw [if_neg]
  intro hx
  rcases List.any_eq_true.mp hx with ⟨a, ha, hk⟩
  exact (h a ha) (by simpa using hk)

lemma extractParamsGo_zip (pairs : List (Str × Str)) :
    ∀ acc : List (Str × Str),
      (pairs.map Prod.fst).Nodup →
      (∀ kv ∈ pairs, kv.1 ≠ [] ∧ decodeURIComponentOpt kv.2 = some kv.2) →
      (∀ kv ∈ pairs, ∀ a ∈ acc, a.1 ≠ kv.1) →
      extractParamsGo (pairs.map Prod.fst) (pairs.map (fun kv => some kv.2)) acc
        = JsResult.ok (acc ++ pairs) := by
  induction pairs with
  | nil =>
    intro acc _ _ _
    simp only [List.map_nil, extractParamsGo, List.append_nil]
  | cons kv rest ih =>
    intro acc hnd hgood hdisj
    have hkv := hgood kv (List.mem_cons_self _ _)
    have hne : kv.1.isEmpty = false := by
      cases hv : kv.1 with
      | nil => exact absurd hv hkv.1
      | cons a b => rfl
    simp only [List.map_cons, extractParamsGo, hne, List.head?_cons, Option.join,
      List.tail_cons]
    rw [show (some (some kv.2)).bind id = some kv.2 from rfl]
    dsimp only
    rw [hkv.2]
    dsimp only
    rw [objSet_fresh acc kv.1 kv.2 (fun a ha => hdisj kv (List.mem_cons_self _ _) a ha)]
    have hnd2 : (rest.map Prod.fst).Nodup := (List.nodup_cons.mp (by simpa using hnd)).2
    have hnotin : kv.1 ∉ rest.map Prod.fst := (List.nodup_cons.mp (by simpa using hnd)).1
    have hgood2 : ∀ x ∈ rest, x.1 ≠ [] ∧ decodeURIComponentOpt x.2 = some x.2 :=
      fun x hx => hgood x (List.mem_cons_of_mem _ hx)
    have hdisj2 : ∀ x ∈ rest, ∀ a ∈ acc ++ [(kv.1, kv.2)], a.1 ≠ x.1 := by
      intro x hx a ha
      rcases List.mem_append.mp ha with h1 | h2
      · exact hdisj x (List.mem_cons_of_mem _ hx) a h1
      · rw [List.mem_singleton.mp h2]
        intro hz
        exact hnotin (hz ▸ List.mem_map_of_mem Prod.fst hx)
    rw [ih (acc ++ [(kv.1, kv.2)]) hnd2 hgood2 hdisj2]
    simp

lemma classify_static (lit : Str) (h : goodStatic lit = true) :
    classifySegment lit = ⟨SegmentType.Static, none, lit⟩ := by
  have hp := goodStatic_props lit h
  simp only [classifySegment]
  rw [if_neg (fun hx => hp.2.2.2 hx.1), if_neg hp.2.2.2, if_neg hp.2.2.1]

lemma classify_dyn (n : Str) :
    classifySegment (':' :: n) = ⟨SegmentType.Dynamic, some n, ':' :: n⟩ := by
  simp only [classifySegment, List.head?_cons]
  rw [if_neg (fun hx => absurd (Option.some.inj hx.1) (by decide)),
    if_neg (fun hx => absurd (Option.some.inj hx) (by decide))]
  simp only [if_true]
  rfl

lemma parseRouteSegments_routePathOf (rsegs : List SDSeg)
    (h : ∀ s ∈ rsegs, goodSDSeg s = true) :
    parseRouteSegments (routePathOf rsegs)
      = (rsegs.map sdRaw).map classifySegment := by
  cases rsegs with
  | nil => rfl
  | cons s rest =>
    have hs0 := sdRaw_good s (h s (List.mem_cons_self _ _))
    simp only [routePathOf, canonPath, List.map_cons]
    rw [if_neg (by simp)]
    simp only [parseRouteSegments]
    rw [if_neg (canonSuffix_ne_root _ _ hs0.1)]
    rw [splitOnSlash_canonSuffix_drop (sdRaw s) (rest.map sdRaw) ?hns]
    case hns =>
      intro x hx
      rcases List.mem_cons.mp hx with rfl | hx2
      · exact hs0.2
      · rcases List.mem_map.mp hx2 with ⟨y, hy, rfl⟩
        exact (sdRaw_good y (h y (List.mem_cons_of_mem _ hy))).2
    rfl

lemma extractParamNames_classified (l : List SDSeg) (h : ∀ s ∈ l, goodSDSeg s = true) :
    extractParamNames ((l.map sdRaw).map classifySegment) = sdNames l := by
  induction l with
  | nil => rfl
  | cons s rest ih =>
    have hrest := fun x hx => h x (List.mem_cons_of_mem _ hx)
    simp only [List.map_cons]
    cases s with
    | staticSeg lit =>
      rw [show sdRaw (SDSeg.staticSeg lit) = lit from rfl,
        classify_static lit (by simpa [goodSDSeg] using h _ (List.mem_cons_self _ _))]
      rw [sdNames_static, ← ih hrest]
      simp [extractParamNames, List.filter_cons]
    | dynSeg n =>
      rw [show sdRaw (SDSeg.dynSeg n) = ':' :: n from rfl, classify_dyn n]
      rw [sdNames_dyn, ← ih hrest]
      simp [extractParamNames, List.filter_cons, List.reduceOption]

lemma paramNames_routePathOf (rsegs : List SDSeg)
    (h : ∀ s ∈ rsegs, goodSDSeg s = true) :
    extractParamNames (parseRouteSegments (routePathOf rsegs)) = sdNames rsegs := by
  rw [parseRouteSegments_routePathOf rsegs h]
  exact extractParamNames_classified rsegs h

lemma filterMap_regexF (l : List SDSeg) (h : ∀ s ∈ l, goodSDSeg s = true) :
    (l.map sdRaw).filterMap (fun segment =>
        if segment.isEmpty then none
        else if segment.head? = some '*' ∧ segment.getLast? = some '?' then
          some RegexPart.optCatchAll
        else if segment.head? = some '*' then some RegexPart.catchAll
        else if segment.head? = some ':' then some RegexPart.dynamic
        else some (RegexPart.lit segment))
      = l.map partOfSD := by
  induction l with
  | nil => rfl
  | cons s rest ih =>
    have hrest := fun x hx => h x (List.mem_cons_of_mem _ hx)
    simp only [List.map_cons, List.filterMap_cons]
    cases s with
    | staticSeg lit =>
      have hp := goodStatic_props lit (by simpa [goodSDSeg] using h _ (List.mem_cons_self _ _))
      rw [show sdRaw (SDSeg.staticSeg lit) = lit from rfl]
      have hie : lit.isEmpty = false := by
        cases hv : lit with
        | nil => exact absurd hv hp.1
        | cons a b => rfl
      rw [hie]
      simp only [Bool.false_eq_true, if_false]
      rw [if_neg (fun hx => hp.2.2.2 hx.1), if_neg hp.2.2.2, if_neg hp.2.2.1]
      rw [ih hrest]
      rfl
    | dynSeg n =>
      rw [show sdRaw (SDSeg.dynSeg n) = ':' :: n from rfl]
      rw [show (':' :: n).isEmpty = false from rfl]
      simp only [Bool.false_eq_true, if_false, List.head?_cons]
      rw [if_neg (fun hx => absurd (Option.some.inj hx.1) (by decide)),
        if_neg (fun hx => absurd (Option.some.inj hx) (by decide))]
      simp only [if_true]
      rw [ih hrest]
      rfl

lemma regexParts_routePathOf (rsegs : List SDSeg)
    (h : ∀ s ∈ rsegs, goodSDSeg s = true) (hne : rsegs ≠ []) :
    routePathToRegex (routePathOf rsegs) = CompiledRegex.parts (rsegs.map partOfSD) := by
  cases rsegs with
  | nil => exact absurd rfl hne
  | cons s rest =>
    have hs0 := sdRaw_good s (h s (List.mem_cons_self _ _))
    simp only [routePathOf, canonPath, List.map_cons]
    rw [if_neg (by simp)]
    simp only [routePathToRegex]
    rw [if_neg (canonSuffix_ne_root _ _ hs0.1)]
    rw [splitOnSlash_canonSuffix_drop (sdRaw s) (rest.map sdRaw) ?hns]
    case hns =>
      intro x hx
      rcases List.mem_cons.mp hx with rfl | hx2
      · exact hs0.2
      · rcases List.mem_map.mp hx2 with ⟨y, hy, rfl⟩
        exact (sdRaw_good y (h y (List.mem_cons_of_mem _ hy))).2
    have := filterMap_regexF (s :: rest) h
    simp only [List.map_cons] at this
    rw [this]

lemma execParts_root_nonempty (s0 : SDSeg) (rest : List SDSeg)
    (hgood : goodSDSeg s0 = true) :
    execParts ((s0 :: rest).map partOfSD) ['/'] = none := by
  cases s0 with
  | staticSeg lit =>
    have hp := goodStatic_props lit (by simpa [goodSDSeg] using hgood)
    simp only [List.map_cons, partOfSD, execParts]
    rw [if_neg]
    intro hx
    rw [List.take_succ_cons] at hx
    have h2 := (List.cons.inj hx).2
    simp only [List.take_nil] at h2
    exact hp.1 h2.symm
  | dynSeg n =>
    simp only [List.map_cons, partOfSD, execParts]
    rfl

lemma matchPath_routePathOf (rsegs : List SDSeg) (psegs : List Str)
    (hgood : ∀ s ∈ rsegs, goodSDSeg s = true)
    (hnd : (sdNames rsegs).Nodup)
    (hpath : ∀ x ∈ psegs, goodPathSeg x = true) :
    matchOutcome (matchPath (routePathOf rsegs) (canonPath psegs))
      = refWalk rsegs psegs := by
  have hsplitR : splitPath (routePathOf rsegs) = rsegs.map sdRaw := by
    cases rsegs with
    | nil => rfl
    | cons s rest =>
      simp only [routePathOf, canonPath]
      rw [if_neg (by simp)]
      refine splitPath_canonSuffix _ ?_
      intro x hx
      rcases List.mem_map.mp hx with ⟨y, hy, rfl⟩
      exact sdRaw_good y (hgood y hy)
  have hsplitP : splitPath (canonPath psegs) = psegs := by
    cases psegs with
    | nil => rfl
    | cons p ps =>
      simp only [canonPath]
      rw [if_neg (by simp)]
      refine splitPath_canonSuffix _ ?_
      intro x hx
      have := goodPathSeg_props x (hpath x hx)
      exact ⟨this.1, this.2.1⟩
  simp only [matchPath, hsplitR, hsplitP]
  by_cases hlen : rsegs.length = psegs.length
  · rw [if_neg (by simp [hlen])]
    rw [matchSegs_refWalk rsegs psegs [] [] hgood hnd (by simp) hlen]
    cases refWalk rsegs psegs <;> simp
  · rw [if_pos (by simpa using hlen)]
    rw [refWalk_none_of_length rsegs psegs hlen]
    rfl

/-- C2 amended: over the segment shapes the structural matcher supports —
static literals and `:name` parameters with valid, pairwise-distinct names —
and over canonical pathnames (slash-separated non-empty, percent-free
segments), the structural segment-walk matcher (`matchPath`) and the
compiled regex matcher of the runtime resolver (`regexMatchRoute` over
`generateRouteDefinition`) produce the same observable outcome: both match or
both fail, and on a match they extract equal parameter mappings.  Outside
this fragment the two matchers genuinely diverge (see the counterexample:
catch-all shapes; also duplicate names, percent escapes and non-canonical
pathnames). -/
theorem dual_matcher_equivalence :
    ∀ (rsegs : List SDSeg) (psegs : List Str),
      (∀ s ∈ rsegs, goodSDSeg s = true) →
      (sdNames rsegs).Nodup →
      (∀ x ∈ psegs, goodPathSeg x = true) →
      regexMatchRoute (generateRouteDefinition (routePathOf rsegs)) (canonPath psegs)
        = JsResult.ok (matchOutcome (matchPath (routePathOf rsegs) (canonPath psegs))) := by
  intro rsegs psegs hgood hnd hpath
  rw [matchPath_routePathOf rsegs psegs hgood hnd hpath]
  cases rsegs with
  | nil =>
    cases psegs with
    | nil => decide
    | cons p ps =>
      have hpne := (goodPathSeg_props p (hpath p (List.mem_cons_self _ _))).1
      simp only [regexMatchRoute, generateRouteDefinition, canonPath]
      rw [if_neg (by simp)]
      rw [show routePathToRegex (routePathOf []) = CompiledRegex.root from rfl]
      simp only [regexExec]
      rw [if_neg (canonSuffix_ne_root p ps hpne)]
      rfl
  | cons r0 rrest =>
    simp only [regexMatchRoute, generateRouteDefinition]
    rw [regexParts_routePathOf _ hgood (by simp)]
    rw [paramNames_routePathOf _ hgood]
    cases psegs with
    | nil =>
      rw [show canonPath ([] : List Str) = ['/'] from rfl]
      simp only [regexExec]
      rw [execParts_root_nonempty r0 rrest (hgood r0 (List.mem_cons_self _ _))]
      rw [refWalk_none_of_length _ _ (by simp)]
    | cons p ps =>
      rw [show canonPath (p :: ps) = canonSuffix (p :: ps) from by simp [canonPath]]
      simp only [regexExec]
      rw [execParts_refWalk _ _ hgood hpath]
      cases hw : refWalk (r0 :: rrest) (p :: ps) with
      | none => rfl
      | some params =>
        obtain ⟨hfst, hvals⟩ := refWalk_facts _ _ _ hw
        have hext : extractParams (sdNames (r0 :: rrest))
            (params.map (fun kv => some kv.2)) = JsResult.ok params := by
          rw [← hfst]
          have hzip := extractParamsGo_zip params [] ?nodup ?good ?disj
          case nodup => rw [hfst]; exact hnd
          case good =>
            intro kv hkv
            have hv2 : kv.2 ∈ p :: ps := hvals kv hkv
            have h2 := goodPathSeg_props _ (hpath _ hv2)
            have hname : kv.1 ∈ sdNames (r0 :: rrest) := by
              rw [← hfst]
              exact List.mem_map_of_mem _ hkv
            exact ⟨validName_ne_nil _ (sdNames_valid _ hgood _ hname),
              decode_no_percent _ h2.2.2⟩
          case disj =>
            intro x hx a ha
            simp at ha
          simpa [extractParams] using hzip
        simp only [Option.map_some']
        rw [hext]

/-- Witness for C2: the equivalence applied to the concrete static/dynamic
route `/users/:id` and the canonical pathname `/users/42`. -/
theorem dual_matcher_equivalence_witness :
    regexMatchRoute
        (generateRouteDefinition
          (routePathOf [SDSeg.staticSeg (strOf "users"), SDSeg.dynSeg (strOf "id")]))
        (canonPath [strOf "users", strOf "42"])
      = JsResult.ok (matchOutcome (matchPath
          (routePathOf [SDSeg.staticSeg (strOf "users"), SDSeg.dynSeg (strOf "id")])
          (canonPath [strOf "users", strOf "42"]))) :=
  dual_matcher_equivalence _ _ (by decide) (by decide) (by decide)
